import Mathlib

/-!
Verification development for the `humanslog` log handler (devslog fork).

The definitions below are a shallow embedding of `devslog.go`.  Pure Go
functions become Lean functions; the recursive value renderer (which in Go
mutates a `visited` map and recurses through the heap) becomes a
fuel-indexed function threading the visited set explicitly, together with a
proved fuel bound.  Machine integers are modelled as `Nat`/`Int` (no values
in these code paths overflow).  Code that can fail to terminate in Go
(unbounded pointer-reduction loops) returns `Option`, with `none` marking
divergence of the source.

The color helpers (`colorString`, `faintedText`, …) and the `attributes`
sort live in a source file that is not part of `src/`; they are modelled
from the spec (§4.7, §4.1) and from the byte-exact expectations of the
repository's test suite, which pins the escape sequences
(`"\x1b[90m" ++ s ++ "\x1b[0m"` and so on).
-/

namespace Humanslog

/-! ### ANSI color engine (modelled from the spec §4.7 and the test suite)

`Modelled from the spec:` the color palette file is missing from `src/`.
A foreground color is an escape pair `ESC [ code m … ESC [ 0 m`; the
level foreground colors behave as a no-op in the one-line format (the
tests show the message uncolored), which we model as the `none` color. -/

/-- Decimal digits of a number, as characters. -/
def natChars (n : Nat) : List Char := (toString n).toList

/-- `ESC [ <code> m` as a string. -/
def escS (c : Nat) : String := "\x1b[" ++ toString c ++ "m"

abbrev FgColor := Option Nat

def fgBlack : FgColor := some 30
def fgRed : FgColor := some 31
def fgGreen : FgColor := some 32
def fgYellow : FgColor := some 33
def fgBlue : FgColor := some 34
def fgCyan : FgColor := some 36
def fgWhite : FgColor := some 37
def fgGray : FgColor := some 90

/-- Modelled from the spec: `colorString` of the missing color file —
wraps the bytes in the foreground escape pair; the `none` color (used for
the per-level message color in the one-line format) is a no-op, matching
the test expectations. -/
def colorStr (c : FgColor) (s : String) : String :=
  match c with
  | none => s
  | some n => escS n ++ s ++ escS 0

/-- Modelled from the spec: `faintedText` of the missing color file. -/
def faintedText (s : String) : String := "\x1b[2m" ++ s ++ escS 0

/-- Modelled from the spec: `colorStringFainted` of the missing color
file: faint attribute followed by the foreground color. -/
def colorStrFainted (c : FgColor) (s : String) : String :=
  match c with
  | none => "\x1b[2m" ++ s ++ escS 0
  | some n => "\x1b[2m" ++ escS n ++ s ++ escS 0

/-- Modelled from the spec: `colorStringBackgorund` — badge coloring:
background escape, then foreground escape, then one reset (byte-exact per
the tests: `"\x1b[42m\x1b[30m INFO \x1b[0m"`). -/
def colorStrBg (fg : Nat) (bg : Nat) (s : String) : String :=
  escS bg ++ escS fg ++ s ++ escS 0

/-! ### JSON validity (model of `encoding/json` acceptance used by `isJSON`)

`json.Unmarshal(data, &js)` with `js : json.RawMessage` succeeds exactly
when `data` is one complete JSON value (RFC 8259 grammar) possibly
surrounded by whitespace.  The scanner below is fuel-indexed; every
recursive call first consumes at least one character, so fuel
`length + 2` never runs out on any input. -/

def jsonWS (c : Char) : Bool :=
  c = ' ' || c = '\t' || c = '\n' || c = '\r'

def skipWS : List Char → List Char
  | [] => []
  | c :: r => if jsonWS c then skipWS r else c :: r

def isHexDigit (c : Char) : Bool :=
  c.isDigit || ('a' ≤ c && c ≤ 'f') || ('A' ≤ c && c ≤ 'F')

/-- Consume a JSON string body after the opening quote; returns the rest
after the closing quote. -/
def parseStringBody : List Char → Option (List Char)
  | [] => none
  | c :: r =>
    if c = '"' then some r
    else if c = '\\' then
      match r with
      | [] => none
      | e :: r2 =>
        if e = 'u' then
          match r2 with
          | h1 :: h2 :: h3 :: h4 :: r3 =>
            if isHexDigit h1 && isHexDigit h2 && isHexDigit h3 && isHexDigit h4 then
              parseStringBody r3
            else none
          | _ => none
        else if e = '"' || e = '\\' || e = '/' || e = 'b' || e = 'f' ||
                e = 'n' || e = 'r' || e = 't' then
          parseStringBody r2
        else none
    else if c.toNat < 0x20 then none
    else parseStringBody r

/-- Consume the integer-and-fraction-and-exponent tail of a JSON number,
given the input positioned after an optional minus sign. -/
def parseNumTail (l : List Char) : Option (List Char) :=
  let intRest : Option (List Char) :=
    match l with
    | '0' :: r => some r
    | c :: r => if c.isDigit then some (r.dropWhile Char.isDigit) else none
    | [] => none
  match intRest with
  | none => none
  | some r1 =>
    let r2 : Option (List Char) :=
      match r1 with
      | '.' :: d :: r => if d.isDigit then some (r.dropWhile Char.isDigit) else none
      | _ => some r1
    match r2 with
    | none => none
    | some r2 =>
      match r2 with
      | e :: r =>
        if e = 'e' || e = 'E' then
          match r with
          | s :: d :: r3 =>
            if (s = '+' || s = '-') && d.isDigit then some (r3.dropWhile Char.isDigit)
            else if s.isDigit then some ((d :: r3).dropWhile Char.isDigit)
            else none
          | [d] => if d.isDigit then some [] else none
          | [] => none
        else some r2
      | [] => some r2

/-- Task tag for the JSON scanner: a value, the inside of an object, or
the inside of an array (`first` marks whether no member was read yet). -/
inductive JTask where
  | val : JTask
  | obj (first : Bool) : JTask
  | arr (first : Bool) : JTask

/-- Fuel-indexed JSON scanner; returns the unconsumed rest on success. -/
def parseJF : Nat → JTask → List Char → Option (List Char)
  | 0, _, _ => none
  | n + 1, .val, l =>
    match skipWS l with
    | '{' :: r => parseJF n (.obj true) r
    | '[' :: r => parseJF n (.arr true) r
    | '"' :: r => parseStringBody r
    | '-' :: r => parseNumTail r
    | 't' :: 'r' :: 'u' :: 'e' :: r => some r
    | 'f' :: 'a' :: 'l' :: 's' :: 'e' :: r => some r
    | 'n' :: 'u' :: 'l' :: 'l' :: r => some r
    | l' => parseNumTail l'
  | n + 1, .obj first, l =>
    match skipWS l with
    | '}' :: r => some r
    | ',' :: r =>
      if first then none
      else
        match skipWS r with
        | '"' :: r2 =>
          match parseStringBody r2 with
          | none => none
          | some r3 =>
            match skipWS r3 with
            | ':' :: r4 =>
              match parseJF n .val r4 with
              | none => none
              | some r5 => parseJF n (.obj false) r5
            | _ => none
        | _ => none
    | '"' :: r =>
      if first then
        match parseStringBody r with
        | none => none
        | some r3 =>
          match skipWS r3 with
          | ':' :: r4 =>
            match parseJF n .val r4 with
            | none => none
            | some r5 => parseJF n (.obj false) r5
          | _ => none
      else none
    | _ => none
  | n + 1, .arr first, l =>
    match skipWS l with
    | ']' :: r => some r
    | ',' :: r =>
      if first then none
      else
        match parseJF n .val r with
        | none => none
        | some r2 => parseJF n (.arr false) r2
    | l' =>
      if first then
        match parseJF n .val l' with
        | none => none
        | some r2 => parseJF n (.arr false) r2
      else none

/-- A char list is one complete JSON value (with surrounding whitespace). -/
def jsonValid (l : List Char) : Bool :=
  match parseJF (l.length + 2) .val l with
  | none => false
  | some rest => (skipWS rest).isEmpty

/-- A whitespace character for `strings.TrimSpace` (ASCII fragment). -/
def goWS (c : Char) : Bool :=
  c = ' ' || c = '\t' || c = '\n' || c = '\r' || c.toNat = 11 || c.toNat = 12

/-- Model of `strings.TrimSpace` over the characters. -/
def goTrimSpace (s : String) : List Char :=
  ((s.toList.dropWhile goWS).reverse.dropWhile goWS).reverse

/-- Model of `(h *developHandler).isJSON` (devslog.go:1057): the trimmed
string must start with a brace or bracket and parse as a complete JSON
value. -/
def isJSON (s : String) : Bool :=
  let t := goTrimSpace s
  (match t with
   | c :: _ => c.toNat = 123 || c.toNat = 91
   | [] => false) && jsonValid t

/-! ### Error chain unwinder (`formatError`, devslog.go:677) -/

/-- A Go `error` value as seen by `formatError`: a leaf (no unwrap
capability), a single-cause wrapper (`Unwrap() error`), or an aggregate
(`Unwrap() []error`, e.g. `errors.Join`). -/
inductive GoError where
  | leaf (msg : String) : GoError
  | wrap (msg : String) (cause : GoError) : GoError
  | multi (msg : String) (causes : List GoError) : GoError

/-- `err.Error()`. -/
def GoError.message : GoError → String
  | .leaf m => m
  | .wrap m _ => m
  | .multi m _ => m

/-- Model of `strings.CutSuffix` keeping only the (possibly unchanged)
string: removes `suf` from the end of `s` when it is a suffix. -/
def cutSuffix (s suf : String) : String :=
  if suf.toList <:+ s.toList then
    ⟨s.toList.take (s.toList.length - suf.toList.length)⟩
  else s

/-- The `collectErrors` closure inside `formatError`: the list of message
segments, in collection order. -/
def collectErrors : GoError → List String
  | .multi _ causes => causes.attach.flatMap fun c => collectErrors c.1
  | .wrap msg cause =>
    let m1 := cutSuffix msg cause.message
    let m2 := cutSuffix m1 ": "
    (if m2 = "" then [] else [m2]) ++ collectErrors cause
  | .leaf msg => [msg]
termination_by e => sizeOf e
decreasing_by
  · have := List.sizeOf_lt_of_mem c.2
    simp only [GoError.multi.sizeOf_spec]
    omega
  · simp only [GoError.wrap.sizeOf_spec]
    omega

/-- Model of `strings.Join`. -/
def goJoin (sep : String) : List String → String
  | [] => ""
  | [x] => x
  | x :: xs => x ++ sep ++ goJoin sep xs

/-! ### Reflected Go values

A `reflect.Value` as dispatched on by `elementType` (devslog.go:799).
Pointers are addresses into an explicit heap (`List RValue`); a `none`
address is a nil pointer.  Values exposing `encoding.TextMarshaler` or
`fmt.Stringer` capabilities are explicit constructors carrying their
serialized text (`vstringer` also carries the value seen when the
`StringerFormatter` option is off; the wrapper is modelled over
non-pointer payloads).  Floats carry their canonical decimal text, since
no claim computes with float arithmetic.  Only exported struct fields are
modelled (the source skips unexported ones).  `vinvalid` is the invalid
`reflect.Value` produced by dereferencing a nil pointer. -/

inductive RValue where
  | vint (n : Int) : RValue
  | vbool (b : Bool) : RValue
  | vstr (s : String) : RValue
  | vfloat (text : String) : RValue
  | vslice (ty : String) (elems : List RValue) : RValue
  | vmap (ty : String) (entries : List (RValue × RValue)) : RValue
  | vstruct (ty : String) (fields : List (String × RValue)) : RValue
  | vptr (ty : String) (addr : Option Nat) : RValue
  | viface (v : RValue) : RValue
  | vifaceNil : RValue
  | vmarshal (ty : String) (text : String) : RValue
  | vstringer (ty : String) (text : String) (under : RValue) : RValue
  | vinvalid : RValue

mutual

/-- Structural size of a value (the auto-generated `sizeOf` of a nested
inductive is not executable, so the measure is defined by hand). -/
def RValue.rsize : RValue → Nat
  | .vslice _ es => rsizeL es + 1
  | .vmap _ entries => rsizeLP entries + 1
  | .vstruct _ fs => rsizeLS fs + 1
  | .viface w => w.rsize + 1
  | .vstringer _ _ u => u.rsize + 1
  | _ => 1

def rsizeL : List RValue → Nat
  | [] => 0
  | v :: l => v.rsize + rsizeL l + 1

def rsizeLP : List (RValue × RValue) → Nat
  | [] => 0
  | (k, v) :: l => k.rsize + v.rsize + rsizeLP l + 1

def rsizeLS : List (String × RValue) → Nat
  | [] => 0
  | (_, v) :: l => v.rsize + rsizeLS l + 1

end

/-- `v.Type().String()` for the values of the model. -/
def RValue.tyName : RValue → String
  | .vint _ => "int"
  | .vbool _ => "bool"
  | .vstr _ => "string"
  | .vfloat _ => "float64"
  | .vslice ty _ => ty
  | .vmap ty _ => ty
  | .vstruct ty _ => ty
  | .vptr ty _ => ty
  | .viface _ => "interface \x7b\x7d"
  | .vifaceNil => "interface \x7b\x7d"
  | .vmarshal ty _ => ty
  | .vstringer ty _ _ => ty
  | .vinvalid => "invalid"

/-- Whether the value has `reflect.Pointer` kind. -/
def RValue.isPtrV : RValue → Bool
  | .vptr _ _ => true
  | _ => false

/-- `fmt` `%v` text of a value in a nested position (pointers print as
addresses, modelled as `0x<addr>`; maps print sorted by key order,
modelled by their textual order).  Fuel-indexed; `sizeOf v` fuel always
suffices since each step descends structurally. -/
def govSprintF : Nat → RValue → String
  | 0, _ => ""
  | n + 1, v =>
    match v with
    | .vint k => toString k
    | .vbool b => toString b
    | .vstr s => s
    | .vfloat s => s
    | .vslice _ es => "[" ++ goJoin " " (es.map (govSprintF n)) ++ "]"
    | .vmap _ entries =>
      "map[" ++ goJoin " "
        ((entries.map fun e => govSprintF n e.1 ++ ":" ++ govSprintF n e.2)) ++ "]"
    | .vstruct _ fields => "\x7b" ++ goJoin " " (fields.map fun f => govSprintF n f.2) ++ "\x7d"
    | .vptr _ none => "<nil>"
    | .vptr _ (some a) => "0x" ++ toString a
    | .viface w => govSprintF n w
    | .vifaceNil => "<nil>"
    | .vmarshal _ t => t
    | .vstringer _ t _ => t
    | .vinvalid => "<invalid reflect.Value>"

/-- `fmt.Sprint` / `atb` of a value at top level: a pointer to a
composite dereferences once and prints with a `&` mark. -/
def govSprintTop (heap : List RValue) (v : RValue) : String :=
  match v with
  | .vptr _ (some a) =>
    match heap.getD a .vinvalid with
    | .vstruct ty fields => "&" ++ govSprintF (RValue.vstruct ty fields).rsize (.vstruct ty fields)
    | .vslice ty es => "&" ++ govSprintF (RValue.vslice ty es).rsize (.vslice ty es)
    | .vmap ty entries => "&" ++ govSprintF (RValue.vmap ty entries).rsize (.vmap ty entries)
    | _ => govSprintF v.rsize v
  | _ => govSprintF v.rsize v

/-- Model of `buildTypeString` (devslog.go:984): each character wrapped
in its own color — `*` red, brackets green, the rest yellow. -/
def buildTypeString (t : String) : String :=
  String.join (t.toList.map fun c =>
    if c = '*' then colorStr fgRed (String.singleton c)
    else if c = '[' || c = ']' then colorStr fgGreen (String.singleton c)
    else colorStr fgYellow (String.singleton c))

/-- `h.nilString()`. -/
def nilString : String := colorStr fgYellow "<nil>"

/-- Lexicographic strict order on character lists (Go compares strings
byte-wise; UTF-8 preserves code-point order, so comparing code points is
equivalent). -/
def listLtChar : List Char → List Char → Bool
  | [], [] => false
  | [], _ :: _ => true
  | _ :: _, [] => false
  | c :: cs, d :: ds =>
    if c.toNat < d.toNat then true
    else if d.toNat < c.toNat then false
    else listLtChar cs ds

/-- Go's `<` on strings. -/
def strLt (a b : String) : Bool := listLtChar a.toList b.toList

/-- Stable insertion into a list sorted by the strict order `lt`:
the element goes after existing elements it is not greater than. -/
def insertLt {α : Type} (lt : α → α → Bool) (a : α) : List α → List α
  | [] => [a]
  | b :: l => if lt b a then b :: insertLt lt a l else a :: b :: l

/-- Modelled from the spec: stable sort by the strict order `lt` —
the stdlib sorts (`sort.Sort`, `sort.Slice`) and the `attributes`
comparator are outside `src/`; per §4.1 the sort is stable by key
(for the small tied inputs of the concrete claims Go's sort is an
insertion sort and is likewise stable). -/
def insertionSort {α : Type} (lt : α → α → Bool) : List α → List α
  | [] => []
  | a :: l => insertLt lt a (insertionSort lt l)

/-- Model of `reducePointerValue` (devslog.go:1014): strip pointers
without consulting the visited set.  Fuel-indexed: the source loop is
unbounded and diverges on a cyclic pointer chain, which the wrapper
below maps to `none`. -/
def reducePVF (heap : List RValue) : Nat → RValue → Option RValue
  | 0, .vptr _ _ => none
  | _ + 1, .vptr _ none => some .vinvalid
  | n + 1, .vptr _ (some a) => reducePVF heap n (heap.getD a .vinvalid)
  | _, v => some v

/-- Model of `reducePointerTypeValue` (devslog.go:1022): like
`reducePVF` but counting the dereference hops. -/
def reducePTVF (heap : List RValue) : Nat → RValue → Nat → Option (RValue × Nat)
  | 0, .vptr _ _, _ => none
  | _ + 1, .vptr _ none, k => some (.vinvalid, k)
  | n + 1, .vptr _ (some a), k => reducePTVF heap n (heap.getD a .vinvalid) (k + 1)
  | _, v, k => some (v, k)

/-- Wrapper for `reducePointerValue`: a chain longer than
`heap.length + 2` hops revisits a cell, so the source loops forever;
the wrapper returns `none` exactly then. -/
def reducePointerValue (heap : List RValue) (v : RValue) : Option RValue :=
  reducePVF heap (heap.length + 2) v

/-- Wrapper for `reducePointerTypeValue` (hop count is the number of
red `*` marks emitted by the callers). -/
def reducePointerTypeValue (heap : List RValue) (v : RValue) : Option (RValue × Nat) :=
  reducePTVF heap (heap.length + 2) v 0

/-- The visited set of a render call (`visited`, devslog.go:472):
`(pointer address, pointer type)` pairs (`visitKey`, devslog.go:467). -/
abbrev Visited := List (Nat × String)

/-- Task tag for the mutually recursive renderer family
`elementType` / `formatSlice` / `formatMap` / `formatStruct`
(devslog.go:720–858) plus their element-list loops. -/
inductive RTask where
  | one (t : String) (v : RValue) : RTask
  | sliceT (t : String) (v : RValue) : RTask
  | mapT (t : String) (v : RValue) : RTask
  | structT (t : String) (v : RValue) : RTask
  | elems (es : List RValue) : RTask
  | entries (es : List (RValue × RValue)) : RTask
  | fields (fs : List (String × RValue)) : RTask

/-- The renderer family, fuel-indexed (every recursive call decrements
the fuel; the fuel theorem below bounds the fuel needed).  `none` means
the fuel ran out, or that an internal pointer-reduction loop of the
source diverges.  The visited set is threaded (the Go map is mutated in
place and shared along the traversal). -/
def runF (maxSlice : Nat) (stringerFmt : Bool) (heap : List RValue) :
    Nat → Visited → RTask → Option (String × Visited)
  | 0, _, _ => none
  | n + 1, vi, task =>
    match task with
    | .one t v =>
      match v with
      | .vmarshal _ text => some (text, vi)
      | .vstringer _ text under =>
        if stringerFmt then some (text, vi)
        else runF maxSlice stringerFmt heap n vi (.one t under)
      | .vslice _ _ => runF maxSlice stringerFmt heap n vi (.sliceT t v)
      | .vmap _ _ => runF maxSlice stringerFmt heap n vi (.mapT t v)
      | .vstruct _ _ => runF maxSlice stringerFmt heap n vi (.structT t v)
      | .vptr ty addr =>
        match addr with
        | none => some (nilString, vi)
        | some a =>
          if (a, ty) ∈ vi then some (govSprintTop heap (.vptr ty (some a)), vi)
          else runF maxSlice stringerFmt heap n ((a, ty) :: vi)
                 (.one t (heap.getD a .vinvalid))
      | .vfloat s => some (colorStr fgCyan s, vi)
      | .vint k => some (colorStr fgCyan (toString k), vi)
      | .vbool b => some (colorStr (if b then fgGreen else fgRed) (toString b), vi)
      | .vstr s =>
        if s.length = 0 then some (colorStrFainted fgWhite "empty", vi)
        else some (s, vi)
      | .viface w => runF maxSlice stringerFmt heap n vi (.one w.tyName w)
      | .vifaceNil => some (nilString, vi)
      | .vinvalid => some (govSprintTop heap .vinvalid, vi)
    | .sliceT t v =>
      match reducePointerTypeValue heap v with
      | none => none
      | some (sv, _) =>
        match sv with
        | .vslice _ es =>
          let maxItems := min maxSlice es.length
          match runF maxSlice stringerFmt heap n vi (.elems (es.take maxItems)) with
          | none => none
          | some (body, vi') =>
            let ell := if es.length > maxItems then " " ++ colorStr fgCyan "..." else ""
            some (colorStr fgCyan (toString es.length) ++ " " ++ buildTypeString t ++
                    colorStr fgGreen "\x7b" ++ body ++ ell ++ colorStr fgGreen "\x7d", vi')
        | _ => none
    | .mapT t v =>
      match reducePointerTypeValue heap v with
      | none => none
      | some (sv, _) =>
        match sv with
        | .vmap _ entries =>
          let sorted := insertionSort
            (fun e₁ e₂ => strLt (govSprintTop heap e₁.1) (govSprintTop heap e₂.1)) entries
          match runF maxSlice stringerFmt heap n vi (.entries sorted) with
          | none => none
          | some (body, vi') =>
            some (colorStr fgCyan (toString entries.length) ++ " " ++ buildTypeString t ++
                    colorStr fgGreen "\x7b" ++ body ++ colorStr fgGreen "\x7d", vi')
        | _ => none
    | .structT t v =>
      match reducePointerTypeValue heap v with
      | none => none
      | some (sv, _) =>
        match sv with
        | .vstruct _ fields =>
          match runF maxSlice stringerFmt heap n vi (.fields fields) with
          | none => none
          | some (body, vi') =>
            some (buildTypeString t ++ colorStr fgYellow "\x7b" ++ body ++
                    colorStr fgYellow "\x7d", vi')
        | _ => none
    | .elems es =>
      match es with
      | [] => some ("", vi)
      | e :: rest =>
        match runF maxSlice stringerFmt heap n vi (.one e.tyName e) with
        | none => none
        | some (s, vi1) =>
          match runF maxSlice stringerFmt heap n vi1 (.elems rest) with
          | none => none
          | some (srest, vi2) =>
            some (if rest.isEmpty then s else s ++ " " ++ srest, vi2)
    | .entries es =>
      match es with
      | [] => some ("", vi)
      | (k, v) :: rest =>
        match reducePointerValue heap v, reducePointerValue heap k with
        | some v', some k' =>
          match runF maxSlice stringerFmt heap n vi (.one v'.tyName v') with
          | none => none
          | some (s, vi1) =>
            match runF maxSlice stringerFmt heap n vi1 (.entries rest) with
            | none => none
            | some (srest, vi2) =>
              let cell := colorStr fgGreen (govSprintTop heap k') ++ "=" ++ s
              some (if rest.isEmpty then cell else cell ++ " " ++ srest, vi2)
        | _, _ => none
    | .fields fs =>
      match fs with
      | [] => some ("", vi)
      | (name, fv) :: rest =>
        match runF maxSlice stringerFmt heap n vi (.one fv.tyName fv) with
        | none => none
        | some (s, vi1) =>
          match runF maxSlice stringerFmt heap n vi1 (.fields rest) with
          | none => none
          | some (srest, vi2) =>
            let cell := colorStr fgGreen name ++ "=" ++ s
            some (if rest.isEmpty then cell else cell ++ " " ++ srest, vi2)

/-- Total size of the heap, for the generous wrapper fuel. -/
def heapTotal (heap : List RValue) : Nat :=
  heap.foldr (fun c acc => c.rsize + acc) 0

/-- Generous fuel for the renderer wrappers: enough for any input whose
pointer-reduction loops terminate (see the fuel theorem). -/
def bigFuel (heap : List RValue) (v : RValue) : Nat :=
  (heapTotal heap + v.rsize + 2) * (2 * (heapTotal heap + v.rsize) + 8)

/-- Wrapper: `h.elementType(t, v, vi)` with sufficient fuel. -/
def elementType (maxSlice : Nat) (stringerFmt : Bool) (heap : List RValue)
    (t : String) (v : RValue) (vi : Visited) : Option (String × Visited) :=
  runF maxSlice stringerFmt heap (bigFuel heap v) vi (.one t v)

/-! ### Termination apparatus for the renderer

`goodF K v` says every pointer occurring structurally in `v` has its
`(address, type)` visit key in the finite set `K`, and no map carries a
pointer-typed key or entry value (such entries are stripped by
`reducePointerValue` *without* consulting the visited set, which is
exactly the unguarded path on which the source can diverge). -/

def goodF (K : List (Nat × String)) : Nat → RValue → Bool
  | 0, _ => false
  | n + 1, v =>
    match v with
    | .vptr ty (some a) => decide ((a, ty) ∈ K)
    | .vptr _ none => true
    | .vslice _ es => es.all (goodF K n)
    | .vmap _ entries =>
      entries.all fun e =>
        !e.1.isPtrV && !e.2.isPtrV && goodF K n e.1 && goodF K n e.2
    | .vstruct _ fs => fs.all fun f => goodF K n f.2
    | .viface w => goodF K n w
    | .vstringer _ _ u => goodF K n u
    | _ => true

/-- All pointer visit keys of `v` lie in `K` and no map of `v` has a
pointer-typed key or entry value. -/
def good (K : List (Nat × String)) (v : RValue) : Bool :=
  goodF K v.rsize v

/-- The invariant carried by each renderer task. -/
def taskGood (K : List (Nat × String)) : RTask → Prop
  | .one _ v => good K v = true
  | .sliceT _ v => (∃ ty es, v = .vslice ty es) ∧ good K v = true
  | .mapT _ v => (∃ ty entries, v = .vmap ty entries) ∧ good K v = true
  | .structT _ v => (∃ ty fs, v = .vstruct ty fs) ∧ good K v = true
  | .elems es => ∀ e ∈ es, good K e = true
  | .entries es => ∀ p ∈ es, (p.1.isPtrV = false ∧ p.2.isPtrV = false) ∧
      good K p.1 = true ∧ good K p.2 = true
  | .fields fs => ∀ f ∈ fs, good K f.2 = true

/-- Number of keys of `K` not yet visited. -/
def unvisited (K : List (Nat × String)) (vi : Visited) : Nat :=
  (K.filter fun k => decide (k ∉ vi)).length

/-- Largest size of a heap cell. -/
def heapMax (heap : List RValue) : Nat :=
  heap.foldr (fun c acc => max c.rsize acc) 0

/-- Measure drop bought by marking one pointer visited. -/
def stepC (heap : List RValue) : Nat := 2 * max (heapMax heap) 1 + 4

/-- Structural cost of a renderer task. -/
def taskCost : RTask → Nat
  | .one _ v => 2 * v.rsize + 2
  | .sliceT _ v => 2 * v.rsize + 1
  | .mapT _ v => 2 * v.rsize + 1
  | .structT _ v => 2 * v.rsize + 1
  | .elems es => 2 * rsizeL es + 1
  | .entries es => 2 * rsizeLP es + 1
  | .fields fs => 2 * rsizeLS fs + 1

/-- The decreasing measure of the renderer: fuel below it never runs out. -/
def rmeasure (K : List (Nat × String)) (heap : List RValue) (vi : Visited)
    (task : RTask) : Nat :=
  unvisited K vi * stepC heap + taskCost task

/-- Model of `(h *developHandler).formatError`. -/
def formatError (e : GoError) : String :=
  colorStr fgRed (goJoin ": " (collectErrors e))

/-! ### Byte-level JSON colorizer (`colorizeJSONBytes`, devslog.go:1096)

Bytes are modelled as `Nat` code units.  The color helpers insert
`ESC [ <digits> m` sequences (`escB`); `stripB` removes every maximal
`ESC [ [0-9;]* m` sequence and keeps any other byte — the same semantics
as the test suite's `stripAnsi` regex. -/

/-- Decimal digit bytes of a number. -/
def digitsB (c : Nat) : List Nat := (toString c).toList.map Char.toNat

/-- `ESC [ <code> m` as bytes. -/
def escB (c : Nat) : List Nat := 27 :: 91 :: (digitsB c ++ [109])

/-- Modelled from the spec: `colorString` of the missing color file, at the
byte level: wrap in the color escape and the reset escape. -/
def colorB (c : Nat) (s : List Nat) : List Nat := escB c ++ (s ++ escB 0)

/-- A parameter byte of an ANSI color sequence: a digit or `;`. -/
def paramB (c : Nat) : Bool := (48 ≤ c && c ≤ 57) || c = 59

/-- Match `[ [0-9;]* m` and return the rest. -/
def matchSeq : List Nat → Option (List Nat)
  | [] => none
  | c :: r =>
    if c = 91 then
      match r.dropWhile paramB with
      | [] => none
      | m :: rest => if m = 109 then some rest else none
    else none

/-- Strip every maximal ANSI color sequence `ESC [ [0-9;]* m`; other
bytes (including a lone `ESC`) are kept — the semantics of the test
suite's `stripAnsi` regex. -/
def stripB : List Nat → List Nat
  | [] => []
  | 27 :: rest =>
    match hm : matchSeq rest with
    | some r => stripB r
    | none => 27 :: stripB rest
  | c :: rest => c :: stripB rest
termination_by l => l.length
decreasing_by
  · have hdw : ∀ (p : Nat → Bool) (l : List Nat), (l.dropWhile p).length ≤ l.length := by
      intro p l
      induction l with
      | nil => simp [List.dropWhile]
      | cons a l ih =>
        simp only [List.dropWhile]
        cases p a
        · simp
        · simp only [List.length_cons]
          omega
    have hmain : ∀ (rr : List Nat), matchSeq rr = some r → r.length < rr.length := by
      intro rr h
      cases rr with
      | nil => simp [matchSeq] at h
      | cons c r2 =>
        simp only [matchSeq] at h
        by_cases hc : c = 91
        · rw [if_pos hc] at h
          have hd : (r2.dropWhile paramB).length ≤ r2.length := hdw paramB r2
          cases hme : r2.dropWhile paramB with
          | nil => rw [hme] at h; simp at h
          | cons m r3 =>
            rw [hme] at h hd
            have h2 : (if m = 109 then some r3 else none) = some r := h
            by_cases hmm : m = 109
            · rw [if_pos hmm] at h2
              injection h2 with h2
              subst h2
              simp only [List.length_cons] at hd ⊢
              omega
            · rw [if_neg hmm] at h2
              simp at h2
        · rw [if_neg hc] at h
          simp at h
    have := hmain rest hm
    simp only [List.length_cons]
    omega
  · simp
  · simp

/-- Whitespace byte for the key lookahead (space, newline, tab, CR). -/
def jwsB (c : Nat) : Bool := c = 32 || c = 10 || c = 9 || c = 13

/-- Skip a JSON string body (after the opening quote) byte-wise,
honouring backslash escapes; returns the rest after the closing quote. -/
def skipStringContent : List Nat → Option (List Nat)
  | [] => none
  | 92 :: [] => none
  | 92 :: _ :: rest => skipStringContent rest
  | 34 :: rest => some rest
  | _ :: rest => skipStringContent rest

/-- The key lookahead of `colorizeJSONBytes`: after an opening quote,
scan past the string and the following whitespace and test for `:`. -/
def lookIsKey (rest : List Nat) : Bool :=
  match skipStringContent rest with
  | none => false
  | some r =>
    match r.dropWhile jwsB with
    | 58 :: _ => true
    | _ => false

/-- A byte of a numeric run: digit, `.`, `-`, `e`, `E`, `+`. -/
def numB (c : Nat) : Bool :=
  (48 ≤ c && c ≤ 57) || c = 46 || c = 45 || c = 101 || c = 69 || c = 43

/-- Model of `colorizeJSONBytes` (devslog.go:1096): one left-to-right
scan over the bytes with in-string / in-key / escape state.  The
`multiline`/`baseIndent` parameters of the source are unused by its
body and are dropped. -/
def colJF : Bool → Bool → Bool → List Nat → List Nat
  | _, _, _, [] => []
  | inString, inKey, true, ch :: rest => ch :: colJF inString inKey false rest
  | true, inKey, false, 92 :: rest => 92 :: colJF true inKey true rest
  | inString, inKey, false, ch :: rest =>
    if ch = 34 then
      if inString then
        colorB (if inKey then 90 else 37) [34] ++ colJF false false false rest
      else
        let isKey := lookIsKey rest
        colorB (if isKey then 90 else 37) [34] ++ colJF true isKey false rest
    else if ch = 123 || ch = 125 || ch = 91 || ch = 93 then
      colorB 36 [ch] ++ colJF inString inKey false rest
    else if ch = 58 || ch = 44 then
      colorB 37 [ch] ++ colJF inString inKey false rest
    else if ch = 116 && !inString then
      if rest.take 3 = [114, 117, 101] then
        colorB 32 [116, 114, 117, 101] ++ colJF inString inKey false (rest.drop 3)
      else ch :: colJF inString inKey false rest
    else if ch = 102 && !inString then
      if rest.take 4 = [97, 108, 115, 101] then
        colorB 31 [102, 97, 108, 115, 101] ++ colJF inString inKey false (rest.drop 4)
      else ch :: colJF inString inKey false rest
    else if ch = 110 && !inString then
      if rest.take 3 = [117, 108, 108] then
        colorB 30 [110, 117, 108, 108] ++ colJF inString inKey false (rest.drop 3)
      else ch :: colJF inString inKey false rest
    else if ((48 ≤ ch && ch ≤ 57) || ch = 45 || ch = 46) && !inString then
      colorB 36 (ch :: rest.takeWhile numB) ++
        colJF inString inKey false (rest.dropWhile numB)
    else
      if inString then
        colorB (if inKey then 90 else 37) [ch] ++ colJF inString inKey false rest
      else
        ch :: colJF inString inKey false rest
termination_by _ _ _ l => l.length
decreasing_by
  all_goals simp only [List.length_cons, List.length_drop]
  all_goals try omega
  all_goals (
    have hdw : (rest.dropWhile numB).length ≤ rest.length := by
      induction rest with
      | nil => simp [List.dropWhile]
      | cons a l ih =>
        simp only [List.dropWhile]
        cases numB a
        · simp
        · simp only [List.length_cons]
          omega
    omega)

/-- `colorizeJSONBytes` entry point: initial state all-false. -/
def colorizeJSONBytes (data : List Nat) : List Nat := colJF false false false data

/-! ### The slog attribute layer

`SValue` models a resolved `slog.Value`; an `Attr` is a key/value pair.
Time and duration values carry their external textual (`String()`)
forms.  `KindAny` carries the dynamic type name and the reflected value;
the dedicated `*time.Time` / `*time.Duration` and `[]uint8`-to-string
conveniences of the source are not modelled (no claim touches them), and
an error payload is the dedicated `err` constructor (the source's
`av.(error)` check). -/

inductive SValue where
  | str (s : String) : SValue
  | int (n : Int) : SValue
  | uint (n : Nat) : SValue
  | float (text : String) : SValue
  | bool (b : Bool) : SValue
  | time (text : String) : SValue
  | duration (text : String) : SValue
  | group (as : List (String × SValue)) : SValue
  | err (e : GoError) : SValue
  | anyNil : SValue
  | any (ty : String) (v : RValue) : SValue

abbrev Attr := String × SValue

mutual

/-- Structural size of a `SValue` (hand-rolled executable measure). -/
def SValue.ssize : SValue → Nat
  | .group as => ssizeL as + 1
  | _ => 1

def ssizeL : List (String × SValue) → Nat
  | [] => 0
  | a :: l => a.2.ssize + ssizeL l + 1

end

mutual

/-- `slog.Value.String()`: groups print as `[k=v k2=v2]` (each
`slog.Attr`'s `String()` joined by spaces inside brackets), dynamic
values via `fmt`. -/
def svalueString (heap : List RValue) : SValue → String
  | .str s => s
  | .int n => toString n
  | .uint n => toString n
  | .float t => t
  | .bool b => toString b
  | .time t => t
  | .duration t => t
  | .group as => "[" ++ svalueGroupString heap as ++ "]"
  | .err e => e.message
  | .anyNil => "<nil>"
  | .any _ v => govSprintTop heap v

def svalueGroupString (heap : List RValue) : List (String × SValue) → String
  | [] => ""
  | [a] => a.1 ++ "=" ++ svalueString heap a.2
  | a :: rest =>
    a.1 ++ "=" ++ svalueString heap a.2 ++ " " ++ svalueGroupString heap rest

end

/-- `strings.Contains(s, "\n")`. -/
def containsNL (s : String) : Bool := s.toList.contains '\n'

mutual

/-- Value part of `attrContainsNewline` (devslog.go:204): strings,
groups recursively, and `KindAny` holding a plain Go `string`; every
other kind is `false`. -/
def svalueCNL : SValue → Bool
  | .str s => containsNL s
  | .group as => attrsContainNewline as
  | .any ty v =>
    if ty = "string" then
      match v with
      | .vstr s => containsNL s
      | _ => false
    else false
  | _ => false

def attrsContainNewline : List (String × SValue) → Bool
  | [] => false
  | (_, v) :: rest => svalueCNL v || attrsContainNewline rest

end

/-- Model of `attrContainsNewline`: the key plays no role. -/
def attrContainsNewline (a : Attr) : Bool := svalueCNL a.2

/-- Scheme tail of an absolute URI: `(ALPHA | DIGIT | + | - | .)* :`. -/
def hasSchemeTail : List Char → Bool
  | [] => false
  | c :: rest =>
    if c = ':' then true
    else if c.isAlpha || c.isDigit || c = '+' || c = '-' || c = '.' then
      hasSchemeTail rest
    else false

/-- Model of `url.ParseRequestURI(s)` succeeding (`net/url`, external
stdlib): the string is non-empty, has no spaces or ASCII control bytes,
and is either rooted (`/...`) or an absolute URI with a scheme. -/
def isURL (s : String) : Bool :=
  match s.toList with
  | [] => false
  | c :: rest =>
    if (c :: rest).any (fun ch => ch.toNat ≤ 32 || ch.toNat = 127) then false
    else if c = '/' then true
    else c.isAlpha && hasSchemeTail rest

/-- Transport of a string to scanner bytes (the JSON texts of the claims
are ASCII, where code points and UTF-8 bytes agree). -/
def bytesOfString (s : String) : List Nat := s.toList.map Char.toNat

/-- Back from scanner bytes. -/
def stringOfBytes (l : List Nat) : String := ⟨l.map Char.ofNat⟩

/-- Model of `formatJSONMultiline` (devslog.go:1083): trim, re-indent via
`json.Indent` (external stdlib, modelled as the identity on the trimmed
text — no claim depends on the whitespace layout), then colorize the
bytes. -/
def formatJSONMultiline (s : String) (_lvl : Nat) : String :=
  stringOfBytes (colorizeJSONBytes (bytesOfString (String.mk (goTrimSpace s))))

/-- The handler options relevant to the one-line format, in source order
(`Options`, devslog.go:30): `AddSource`, `ReplaceAttr`,
`MaxSlicePrintSize`, `SortKeys`, `NewLineAfterLog`, `StringIndentation`,
`StringerFormatter`.  `TimeFormat` is external time formatting and is
carried in `Record` as already-formatted text. -/
structure Opts where
  addSource : Bool
  replaceAttr : Option (List String → Attr → Attr)
  maxSlicePrintSize : Nat
  sortKeys : Bool
  newLineAfterLog : Bool
  stringIndentation : Bool
  stringerFormatter : Bool

/-- Apply the `ReplaceAttr` hook if present. -/
def applyHook (h : Opts) (group : List String) (a : Attr) : Attr :=
  match h.replaceAttr with
  | some f => f group a
  | none => a

/-- Model of `padding` (devslog.go:652) with `color = nil`: the longest
hooked key length (lengths in characters; the claims' keys are ASCII, so
character and byte counts agree). -/
def padding (h : Opts) (as : List Attr) (g : List String) : Nat :=
  as.foldl (fun acc a => max acc (applyHook h g a).1.length) 0

/-- Reflection tail of `formatValueInline` (devslog.go:924): reduce the
pointer chain (`none` = the source's reduction loop diverges), emit a
red star per hop, dispatch on the reduced kind; `dflt` is
`a.Value.String()` for the default branch. -/
def fviReflect (h : Opts) (heap : List RValue) (dflt : String) (v : RValue) :
    Option String :=
  match reducePointerTypeValue heap v with
  | none => none
  | some (uv, ptrs) =>
    let stars := String.join (List.replicate ptrs (colorStr fgRed "*"))
    match uv with
    | .vslice _ _ =>
      (runF h.maxSlicePrintSize h.stringerFormatter heap (bigFuel heap v) []
          (.sliceT v.tyName v)).map fun p => stars ++ p.1
    | .vmap _ _ =>
      (runF h.maxSlicePrintSize h.stringerFormatter heap (bigFuel heap v) []
          (.mapT v.tyName v)).map fun p => stars ++ p.1
    | .vstruct _ _ =>
      (runF h.maxSlicePrintSize h.stringerFormatter heap (bigFuel heap v) []
          (.structT v.tyName v)).map fun p => stars ++ p.1
    | .vfloat t => some (stars ++ colorStr fgCyan t)
    | .vint n => some (stars ++ colorStr fgCyan (toString n))
    | .vbool b =>
      some (stars ++ colorStr (if b then fgGreen else fgRed) (toString b))
    | .vstr sv =>
      if sv.length = 0 then some (stars ++ colorStrFainted fgWhite "empty")
      else if isURL sv then some (colorStr fgCyan (stars ++ sv))
      else if isJSON sv then some (formatJSONMultiline sv 0)
      else some (stars ++ sv)
    | _ => some dflt

/-- `KindAny` head of `formatValueInline`: text marshaller, then
stringer (when the option is on; when off, reflection dispatches on the
underlying value), then the reflection tail. -/
def fviAny (h : Opts) (heap : List RValue) (dflt : String) :
    RValue → Option String
  | .vmarshal _ text => some text
  | .vstringer _ text u =>
    if h.stringerFormatter then some text else fviAny h heap dflt u
  | v => fviReflect h heap dflt v

/-- Model of `formatValueInline` (devslog.go:862).  Note the
`KindString` branch has no empty-string case: JSON, URL, else the
literal text. -/
def formatValueInline (h : Opts) (heap : List RValue) (a : Attr) :
    Option String :=
  match a.2 with
  | .str s =>
    if isJSON s then some (formatJSONMultiline s 0)
    else if isURL s then some (colorStr fgCyan s)
    else some s
  | .int n => some (colorStr fgCyan (toString n))
  | .uint n => some (colorStr fgCyan (toString n))
  | .float t => some (colorStr fgCyan t)
  | .bool b => some (colorStr (if b then fgGreen else fgRed) (toString b))
  | .time t => some (colorStr fgWhite t)
  | .duration t => some (colorStr fgWhite t)
  | .err e => some (formatError e)
  | .anyNil => some nilString
  | .any ty v => fviAny h heap (svalueString heap (.any ty v)) v
  | .group ga => some (svalueString heap (.group ga))

/-- Model of `formatLogfmtAttrs` (devslog.go:361), fuel-indexed (the
hook can nest groups without bound; `none` marks fuel exhaustion or a
divergent pointer reduction).  Returns the bytes appended to the line:
per attribute a space, the gray `key=` (dotted group path), and the
inline value; groups flatten recursively. -/
def formatLogfmtAttrsF (h : Opts) (heap : List RValue) :
    Nat → List Attr → List String → Option String
  | 0, _, _ => none
  | _ + 1, [], _ => some ""
  | n + 1, a :: as, group =>
    let a2 := applyHook h group a
    match a2.2 with
    | .group ga =>
      match formatLogfmtAttrsF h heap n ga (group ++ [a2.1]) with
      | none => none
      | some sub =>
        match formatLogfmtAttrsF h heap n as group with
        | none => none
        | some rest => some (sub ++ rest)
    | _ =>
      let key := if group.isEmpty then a2.1 else goJoin "." (group ++ [a2.1])
      match formatValueInline h heap a2 with
      | none => none
      | some val =>
        match formatLogfmtAttrsF h heap n as group with
        | none => none
        | some rest =>
          some (" " ++ colorStr fgGray (key ++ "=") ++ val ++ rest)

/-- Modelled from the spec: `underlineText` of the missing color file. -/
def underlineText (s : String) : String := "\x1b[4m" ++ s ++ escS 0

/-- `strings.ReplaceAll(s, "\n", "\n" ++ <count spaces>)`. -/
def strIndentNL (count : Nat) (s : String) : String :=
  String.mk (s.toList.flatMap fun c =>
    if c = '\n' then '\n' :: List.replicate count ' ' else [c])

/-- The key order used by `sort.Sort(as)`. -/
def attrLt (x y : Attr) : Bool := strLt x.1 y.1

/-- The `KindAny` switch of `colorize` (devslog.go:522) after the error
branch: text marshaller, stringer, then reflection.  Returns
`(mark, val, vs, visited, group, isGroup)`; `vs` is the reassigned
comparison text of the source (only the reflected scalar branches change
it). -/
def colorizeAny (h : Opts) (heap : List RValue) (valOld : String)
    (vi : Visited) (group : List String) :
    RValue → Option (String × String × String × Visited × List String × Bool)
  | .vmarshal _ text => some ("", text, valOld, vi, group, false)
  | .vstringer _ text u =>
    if h.stringerFormatter then some ("", text, valOld, vi, group, false)
    else colorizeAny h heap valOld vi group u
  | v =>
    match reducePointerTypeValue heap v with
    | none => none
    | some (uv, ptrs) =>
      let stars := String.join (List.replicate ptrs (colorStr fgRed "*"))
      match uv with
      | .vslice _ _ =>
        match runF h.maxSlicePrintSize h.stringerFormatter heap
            (bigFuel heap v) vi (.sliceT v.tyName v) with
        | none => none
        | some (sv, vi2) => some (colorStr fgGreen "S", sv, valOld, vi2, group, false)
      | .vmap _ _ =>
        match runF h.maxSlicePrintSize h.stringerFormatter heap
            (bigFuel heap v) vi (.mapT v.tyName v) with
        | none => none
        | some (sv, vi2) => some (colorStr fgGreen "M", sv, valOld, vi2, group, false)
      | .vstruct _ _ =>
        match runF h.maxSlicePrintSize h.stringerFormatter heap
            (bigFuel heap v) vi (.structT v.tyName v) with
        | none => none
        | some (sv, vi2) => some (colorStr fgYellow "S", sv, valOld, vi2, group, false)
      | .vfloat t =>
        some (colorStr fgCyan "#", stars ++ colorStr fgCyan t, t, vi, group, false)
      | .vint k =>
        some (colorStr fgCyan "#", stars ++ colorStr fgCyan (toString k),
          toString k, vi, group, false)
      | .vbool bb =>
        let c := if bb then fgGreen else fgRed
        some (colorStr c "#", stars ++ colorStr c (toString bb),
          toString bb, vi, group, false)
      | .vstr sv =>
        if sv.length = 0 then
          some ("", colorStrFainted fgWhite "empty", valOld, vi, group, false)
        else if isURL sv then
          some ("", underlineText (colorStr fgCyan stars), valOld, vi, group, false)
        else
          some ("", sv, valOld, vi, group, false)
      | _ =>
        some (colorStr fgRed "!", colorStr fgRed "Unknown type", valOld, vi,
          group, false)

/-- The loop body of `colorize` (devslog.go:474), fuel-indexed
(re-entered for nested groups).  The line of an attribute is the
indentation, the mark, a space, the gray key, `=`, the value, the
faint-quoted `a.Value.String()` appendix when the source's `vs` differs
from `valOld`, and a newline except after a group.  Note the source
reassigns `group` after a group attribute, so later siblings see the
extended path — the model threads the updated group the same way. -/
def colorizeLoop (h : Opts) (heap : List RValue) :
    Nat → List Attr → Nat → List String → Visited → Nat →
    Option (String × Visited)
  | 0, _, _, _, _, _ => none
  | _ + 1, [], _, _, vi, _ => some ("", vi)
  | n + 1, a :: as, l, group, vi, pad =>
    let a2 := applyHook h group a
    let key := colorStr fgGray a2.1
    let valOld := svalueString heap a2.2
    let step : Option (String × String × String × Visited × List String × Bool) :=
      match a2.2 with
      | .int _ =>
        some (colorStr fgCyan "#", colorStr fgCyan valOld, valOld, vi, group, false)
      | .uint _ =>
        some (colorStr fgCyan "#", colorStr fgCyan valOld, valOld, vi, group, false)
      | .float _ =>
        some (colorStr fgCyan "#", colorStr fgCyan valOld, valOld, vi, group, false)
      | .bool bb =>
        let c := if bb then fgGreen else fgRed
        some (colorStr c "#", colorStr c valOld, valOld, vi, group, false)
      | .str sv =>
        if sv.length = 0 then
          some ("", colorStrFainted fgWhite "empty", valOld, vi, group, false)
        else if isJSON sv then
          some (colorStr fgWhite "J", formatJSONMultiline sv l, valOld, vi, group, false)
        else if isURL sv then
          some (colorStr fgCyan "*", underlineText (colorStr fgCyan sv), valOld,
            vi, group, false)
        else if h.stringIndentation then
          some ("", strIndentNL (l * 2 + (4 + pad)) sv, valOld, vi, group, false)
        else
          some ("", sv, valOld, vi, group, false)
      | .time _ =>
        some (colorStr fgWhite "@", colorStr fgWhite valOld, valOld, vi, group, false)
      | .duration _ =>
        some (colorStr fgWhite "@", colorStr fgWhite valOld, valOld, vi, group, false)
      | .err e =>
        some (colorStr fgRed "E", formatError e, valOld, vi, group, false)
      | .anyNil =>
        some (colorStr fgRed "!", nilString, valOld, vi, group, false)
      | .any _ v => colorizeAny h heap valOld vi group v
      | .group ga =>
        let group2 := group ++ [a2.1]
        let ga2 := if h.sortKeys then insertionSort attrLt ga else ga
        match colorizeLoop h heap n ga2 (l + 1) group2 vi (padding h ga2 group2) with
        | none => none
        | some (sub, vi2) =>
          some (colorStr fgGreen "G", "\n" ++ sub, valOld, vi2, group2, true)
    match step with
    | none => none
    | some (mark, val, vs, vi2, group2, isGroup) =>
      let suffix :=
        if vs = valOld then ""
        else colorStrFainted fgWhite (" \"" ++ valOld ++ "\"")
      let line := String.mk (List.replicate (l * 2) ' ') ++ mark ++ " " ++ key ++
        "=" ++ val ++ suffix ++ (if isGroup then "" else "\n")
      match colorizeLoop h heap n as l group2 vi2 pad with
      | none => none
      | some (rest, vi3) => some (line ++ rest, vi3)

/-- Model of `colorize` (devslog.go:474): sort when `SortKeys`, compute
the no-color padding, then run the loop. -/
def colorizeF (h : Opts) (heap : List RValue) (fuel : Nat) (as : List Attr)
    (l : Nat) (group : List String) (vi : Visited) : Option (String × Visited) :=
  let as2 := if h.sortKeys then insertionSort attrLt as else as
  colorizeLoop h heap fuel as2 l group vi (padding h as2 group)

/-- `slog.Level.String()`: base name plus signed offset. -/
def levelString (l : Int) : String :=
  let f : String → Int → String := fun base v =>
    if v = 0 then base
    else if v > 0 then base ++ "+" ++ toString v
    else base ++ toString v
  if l < 0 then f "DEBUG" (l + 4)
  else if l < 4 then f "INFO" l
  else if l < 8 then f "WARN" (l - 4)
  else f "ERROR" (l - 8)

/-- Modelled from the spec: the level badge background color codes of
the missing color file, pinned byte-exactly by the test suite
(`44`/`42`/`43`/`41`). -/
def levelBg (l : Int) : Nat :=
  if l < 0 then 44 else if l < 4 then 42 else if l < 8 then 43 else 41

/-- A frame of `WithGroup`/`WithAttrs` derivation (the handler's
`goas []groupOrAttrs` state, devslog.go:25; a non-empty `group` is a
group frame, an attrs frame has `group = ""`). -/
structure groupOrAttrs where
  group : String
  attrs : List Attr

/-- The trailing-group drop of `formatOneLine` (devslog.go:301): while
the newest frame is a group frame, drop it (the source loop from the end
is the reversed `dropWhile`). -/
def dropTrailingGroups (goas : List groupOrAttrs) : List groupOrAttrs :=
  (goas.reverse.dropWhile fun g => g.group != "").reverse

/-- The merge loop of `formatOneLine` (devslog.go:307), walking the
frames newest-first (hence over the reversed list): a group frame wraps
the accumulated attrs into a single group attr; an attrs frame appends
its attrs. -/
def mergeGoasRev : List groupOrAttrs → List Attr → List Attr
  | [], as => as
  | g :: rest, as =>
    if g.group != "" then mergeGoasRev rest [(g.group, .group as)]
    else mergeGoasRev rest (as ++ g.attrs)

/-- A log record as `formatOneLine` consumes it: externally formatted
time text, numeric level, message, resolved attrs, and the source
file/line resolved from the PC. -/
structure Record where
  timeText : String
  level : Int
  message : String
  attrs : List Attr
  srcFile : String
  srcLine : Nat

/-- The source segment of `formatOneLine` (devslog.go:234): when
`AddSource` is on, the hook (if any) is shown the source attr (the model
passes its textual form; only the returned key is consulted); an empty
returned key suppresses the segment, otherwise `file:line` in white plus
a space. -/
def sourceSegment (h : Opts) (r : Record) : String :=
  if h.addSource then
    let sourceStr := r.srcFile ++ ":" ++ toString r.srcLine
    match h.replaceAttr with
    | some f =>
      if (f [] ("source", .str sourceStr)).1 != "" then
        colorStr fgWhite sourceStr ++ " "
      else ""
    | none => colorStr fgWhite sourceStr ++ " "
  else ""

/-- The level section of `formatOneLine` (devslog.go:256): the badge
text, and the record attrs after the `AddAttrs` quirk — a hook result
whose key is not `"level"` is appended to the record's attrs.  The model
shows the hook the textual level. -/
def levelText (h : Opts) (heap : List RValue) (r : Record) :
    String × List Attr :=
  match h.replaceAttr with
  | some f =>
    let a := f [] ("level", .str (levelString r.level))
    (svalueString heap a.2, if a.1 != "level" then r.attrs ++ [a] else r.attrs)
  | none => (levelString r.level, r.attrs)

/-- The block-routing predicate of `formatOneLine` (devslog.go:326). -/
def isBlockAttr (heap : List RValue) (a : Attr) : Bool :=
  attrContainsNewline a || isJSON (svalueString heap a.2)

/-- Generous fuel for the nested-attr recursions of one record. -/
def attrFuel (heap : List RValue) (as : List Attr) : Nat :=
  4 * (ssizeL as + as.length + heapTotal heap + 16)

/-- Model of `formatOneLine` (devslog.go:228): faint time text, optional
source segment, level badge (black on the level background; the level
foreground is a no-op in this format), the message inline when it has no
newline, the goas merge with the trailing-group drop (applied only when
the record carries zero attrs after the level quirk), the optional
top-level sort, the inline/block partition, the logfmt inline section,
the multiline section (message first when it has newlines, then the
block attrs via the block renderer with a fresh shared visited set), and
the trailing newlines. -/
def formatOneLine (h : Opts) (heap : List RValue) (goas : List groupOrAttrs)
    (r : Record) : Option String :=
  let head := faintedText r.timeText ++ " " ++ sourceSegment h r
  let lt := levelText h heap r
  let badge := colorStrBg 30 (levelBg r.level) (" " ++ lt.1 ++ " ") ++ " "
  let msgNL := containsNL r.message
  let msgInline := if msgNL then "" else r.message
  let goas2 := if lt.2.isEmpty then dropTrailingGroups goas else goas
  let as0 := mergeGoasRev goas2.reverse lt.2
  let as1 := if h.sortKeys then insertionSort attrLt as0 else as0
  let inline := as1.filter fun a => !isBlockAttr heap a
  let blocks := as1.filter fun a => isBlockAttr heap a
  match formatLogfmtAttrsF h heap (attrFuel heap as1) inline [] with
  | none => none
  | some inlineStr =>
    let blockPart :=
      if blocks.isEmpty then some ""
      else
        match colorizeF h heap (attrFuel heap as1) blocks 0 [] [] with
        | none => none
        | some p => some p.1
    match blockPart with
    | none => none
    | some blockStr =>
      let msgBlock := if msgNL then "  " ++ r.message ++ "\n" else ""
      let tail := (if h.newLineAfterLog then "\n" else "") ++ "\n"
      some (head ++ badge ++ msgInline ++ inlineStr ++
        (if msgNL || !blocks.isEmpty then msgBlock ++ blockStr else "") ++ tail)

/-- Whether a `SValue` is `KindString`. -/
def isStringKind : SValue → Bool
  | .str _ => true
  | _ => false

/-- Whether a `SValue` is `KindGroup`. -/
def isGroupKind : SValue → Bool
  | .group _ => true
  | _ => false

mutual

/-- The strings that `attrContainsNewline` scans in a value: its own
string when string-kinded (including a `KindAny` plain string), and the
strings of nested group members. -/
def svalueStrings : SValue → List String
  | .str s => [s]
  | .group as => attrStringsL as
  | .any ty v =>
    if ty = "string" then
      match v with
      | .vstr s => [s]
      | _ => []
    else []
  | _ => []

def attrStringsL : List (String × SValue) → List String
  | [] => []
  | (_, v) :: rest => svalueStrings v ++ attrStringsL rest

end

/-- The strings an attribute carries in string positions. -/
def attrStrings (a : Attr) : List String := svalueStrings a.2

mutual

/-- The keys of the members of a group value (empty otherwise),
including nested ones. -/
def svalueKeys : SValue → List String
  | .group as => attrKeysL as
  | _ => []

def attrKeysL : List (String × SValue) → List String
  | [] => []
  | (k, v) :: rest => (k :: svalueKeys v) ++ attrKeysL rest

end

/-- Every key occurring in an attribute: its own and those of nested
group members. -/
def attrKeys (a : Attr) : List String := a.1 :: svalueKeys a.2

/-- Every name a goas prefix can contribute to the merged attrs: group
names of group frames and the keys of attr-frame attributes. -/
def goasKeys (gs : List groupOrAttrs) : List String :=
  gs.flatMap fun g => (if g.group = "" then [] else [g.group]) ++ attrKeysL g.attrs

/-- The byte list does not start with `[` (91). -/
def headNot91 : List Nat → Bool
  | c :: _ => !(c == 91)
  | [] => true

/-! ### Concrete inputs for the attribute-layer claims -/

/-- Options with every feature off and no hook. -/
def plainOpts : Opts := ⟨false, none, 50, false, false, false, false⟩

/-- Options with only `SortKeys` enabled. -/
def sortOpts : Opts := ⟨false, none, 50, true, false, false, false⟩

/-- A record carrying one group attribute whose members are keyed out of
order (`b` before `a`). -/
def nestedRec : Record :=
  ⟨"", 0, "m", [("g", .group [("b", .str "1"), ("a", .str "2")])], "", 0⟩

/-- A hook renaming the `level` key (as the test suite's
`replaceAttributes` does). -/
def levelRenameHook : List String → Attr → Attr := fun _ a =>
  if a.1 = "level" then ("lvl", a.2) else a

/-- Options carrying the level-renaming hook. -/
def levelRenameOpts : Opts := ⟨false, some levelRenameHook, 50, false, false, false, false⟩

/-- A record with no attributes. -/
def emptyRec : Record := ⟨"", 0, "m", [], "", 0⟩

/-- A single empty group frame (`WithGroup("g")` derivation). -/
def gFrame : List groupOrAttrs := [⟨"g", []⟩]

/-- An attrs frame followed by a trailing group frame. -/
def c4goas : List groupOrAttrs := [⟨"", [("a", .str "x")]⟩, ⟨"g", []⟩]

/-- A hook emptying every key. -/
def dropKeyHook : List String → Attr → Attr := fun _ a => ("", a.2)

/-- Options with `AddSource` and the key-dropping hook. -/
def dropKeyOpts : Opts := ⟨true, some dropKeyHook, 50, false, false, false, false⟩

/-- A record carrying a source location. -/
def srcRec : Record := ⟨"", 0, "", [], "f.go", 3⟩

/-- A non-string attribute whose textual form `"[1]"` is JSON-parseable. -/
def c3Attr : Attr := ("k", .any "[]int" (.vslice "[]int" [.vint 1]))

/-! ### Concrete inputs for the cycle claims -/

/-- The `testInfinite` cycle: three `Infinite` structs, each holding a
pointer to the next, the last back to the first (A→B→C→A). -/
def cycleHeap : List RValue :=
  [ .vstruct "humanslog.Infinite" [("I", .vptr "*humanslog.Infinite" (some 1))],
    .vstruct "humanslog.Infinite" [("I", .vptr "*humanslog.Infinite" (some 2))],
    .vstruct "humanslog.Infinite" [("I", .vptr "*humanslog.Infinite" (some 0))] ]

/-- The visit keys of the cycle heap. -/
def cycleKeys : List (Nat × String) :=
  [(0, "*humanslog.Infinite"), (1, "*humanslog.Infinite"), (2, "*humanslog.Infinite")]

/-- A value of the self-referential pointer type `type P *P` whose single
cell points to itself: `p = P(&p)`. -/
def selfPtrHeap : List RValue := [.vptr "humanslog.P" (some 0)]

/-- The pointer value of the self-referential cell. -/
def selfPtrVal : RValue := .vptr "humanslog.P" (some 0)

/-- Statement: the pointer-stripping loop of `reducePointerTypeValue`
never finishes on the self-referential pointer, no matter how many
iterations it is allowed — i.e. the source loop `for v.Kind() ==
Pointer` diverges before `elementType` and its visited set are ever
reached. -/
def selfPtrReduceDiverges : Prop :=
  ∀ (n k : Nat), reducePTVF selfPtrHeap n selfPtrVal k = none

end Humanslog

namespace Humanslog

/-! ### Helper lemmas -/

theorem rsize_pos (v : RValue) : 1 ≤ v.rsize := by
  cases v <;> simp [RValue.rsize]

theorem mem_rsizeL {e : RValue} {l : List RValue} (h : e ∈ l) :
    e.rsize + 1 ≤ rsizeL l := by
  induction l with
  | nil => simp at h
  | cons a l ih =>
    rcases List.mem_cons.1 h with rfl | h
    · simp only [rsizeL]; omega
    · have := ih h
      simp only [rsizeL]; omega

theorem mem_rsizeLP {p : RValue × RValue} {l : List (RValue × RValue)} (h : p ∈ l) :
    p.1.rsize + p.2.rsize + 1 ≤ rsizeLP l := by
  induction l with
  | nil => simp at h
  | cons a l ih =>
    rcases List.mem_cons.1 h with rfl | h
    · simp only [rsizeLP]; omega
    · have := ih h
      rcases a with ⟨k, v⟩
      simp only [rsizeLP]; omega

theorem mem_rsizeLS {f : String × RValue} {l : List (String × RValue)} (h : f ∈ l) :
    f.2.rsize + 1 ≤ rsizeLS l := by
  induction l with
  | nil => simp at h
  | cons a l ih =>
    rcases List.mem_cons.1 h with rfl | h
    · simp only [rsizeLS]; omega
    · have := ih h
      rcases a with ⟨nm, v⟩
      simp only [rsizeLS]; omega

theorem all_congrH {α : Type} {p q : α → Bool} :
    ∀ l : List α, (∀ a ∈ l, p a = q a) → l.all p = l.all q := by
  intro l h
  induction l with
  | nil => rfl
  | cons a l ih =>
    simp only [List.all_cons, h a (by simp), ih fun b hb => h b (by simp [hb])]

theorem goodF_fuel {K : List (Nat × String)} :
    ∀ n m (v : RValue), v.rsize ≤ n → v.rsize ≤ m → goodF K n v = goodF K m v := by
  intro n
  induction n with
  | zero => intro m v h; have := rsize_pos v; omega
  | succ n ih =>
    intro m v hn hm
    have h1 := rsize_pos v
    obtain ⟨m', rfl⟩ : ∃ m', m = m' + 1 := ⟨m - 1, by omega⟩
    cases v with
    | vslice ty es =>
      simp only [goodF]
      refine all_congrH es fun e he => ?_
      have hsz := mem_rsizeL he
      simp only [RValue.rsize] at hn hm
      exact ih m' e (by omega) (by omega)
    | vmap ty entries =>
      simp only [goodF]
      refine all_congrH entries fun e he => ?_
      have hsz := mem_rsizeLP he
      simp only [RValue.rsize] at hn hm
      rw [ih m' e.1 (by omega) (by omega), ih m' e.2 (by omega) (by omega)]
    | vstruct ty fs =>
      simp only [goodF]
      refine all_congrH fs fun f hf => ?_
      have hsz := mem_rsizeLS hf
      simp only [RValue.rsize] at hn hm
      rw [ih m' f.2 (by omega) (by omega)]
    | viface w =>
      simp only [goodF]
      simp only [RValue.rsize] at hn hm
      exact ih m' w (by omega) (by omega)
    | vstringer ty s u =>
      simp only [goodF]
      simp only [RValue.rsize] at hn hm
      exact ih m' u (by omega) (by omega)
    | vptr ty a => cases a <;> simp [goodF]
    | vint k => simp [goodF]
    | vbool b => simp [goodF]
    | vstr s => simp [goodF]
    | vfloat s => simp [goodF]
    | vifaceNil => simp [goodF]
    | vmarshal ty s => simp [goodF]
    | vinvalid => simp [goodF]

theorem good_ptr {K : List (Nat × String)} {ty : String} {a : Nat}
    (h : good K (.vptr ty (some a)) = true) : (a, ty) ∈ K := by
  simpa [good, RValue.rsize, goodF] using h

theorem good_slice_mem {K : List (Nat × String)} {ty : String} {es : List RValue}
    (h : good K (.vslice ty es) = true) : ∀ e ∈ es, good K e = true := by
  intro e he
  have hsz := mem_rsizeL he
  unfold good at h
  simp only [RValue.rsize, goodF, List.all_eq_true] at h
  have := h e he
  rwa [goodF_fuel (rsizeL es) e.rsize e (by omega) le_rfl] at this

theorem good_map_mem {K : List (Nat × String)} {ty : String}
    {entries : List (RValue × RValue)}
    (h : good K (.vmap ty entries) = true) :
    ∀ p ∈ entries, (p.1.isPtrV = false ∧ p.2.isPtrV = false) ∧
      good K p.1 = true ∧ good K p.2 = true := by
  intro p hp
  have hsz := mem_rsizeLP hp
  unfold good at h
  simp only [RValue.rsize, goodF, List.all_eq_true] at h
  have hh := h p hp
  simp only [Bool.and_eq_true, Bool.not_eq_eq_eq_not, Bool.not_true] at hh
  obtain ⟨⟨⟨h1, h2⟩, h3⟩, h4⟩ := hh
  refine ⟨⟨by simpa using h1, by simpa using h2⟩, ?_, ?_⟩
  · unfold good
    rwa [goodF_fuel p.1.rsize (rsizeLP entries) p.1 le_rfl (by omega)]
  · unfold good
    rwa [goodF_fuel p.2.rsize (rsizeLP entries) p.2 le_rfl (by omega)]

theorem good_struct_mem {K : List (Nat × String)} {ty : String}
    {fs : List (String × RValue)}
    (h : good K (.vstruct ty fs) = true) : ∀ f ∈ fs, good K f.2 = true := by
  intro f hf
  have hsz := mem_rsizeLS hf
  unfold good at h
  simp only [RValue.rsize, goodF, List.all_eq_true] at h
  have := h f hf
  unfold good
  rwa [goodF_fuel f.2.rsize (rsizeLS fs) f.2 le_rfl (by omega)]

theorem good_iface {K : List (Nat × String)} {w : RValue}
    (h : good K (.viface w) = true) : good K w = true := by
  unfold good at h ⊢
  simp only [RValue.rsize, goodF] at h
  rwa [goodF_fuel w.rsize w.rsize w le_rfl le_rfl] at h ⊢

theorem good_stringer {K : List (Nat × String)} {ty s : String} {u : RValue}
    (h : good K (.vstringer ty s u) = true) : good K u = true := by
  unfold good at h ⊢
  simp only [RValue.rsize, goodF] at h
  exact h

theorem string_toList_append (x y : String) : (x ++ y).toList = x.toList ++ y.toList := by
  simp [String.toList]

theorem cutSuffix_append (x y : String) : cutSuffix (x ++ y) y = x := by
  have hd : (x ++ y).toList = x.toList ++ y.toList := string_toList_append x y
  unfold cutSuffix
  rw [if_pos (by rw [hd]; exact List.suffix_append _ _)]
  apply String.ext
  show (x ++ y).toList.take ((x ++ y).toList.length - y.toList.length) = x.data
  rw [hd, List.length_append, Nat.add_sub_cancel, List.take_left]
  rfl

/-- C5 core: the segment collection on a two-wrapper chain whose messages
extend the cause by a prefix and `": "`. -/
theorem collectErrors_chain (a b c : String) (ha : a ≠ "") (hb : b ≠ "") :
    collectErrors (.wrap (a ++ ": " ++ (b ++ ": " ++ c)) (.wrap (b ++ ": " ++ c) (.leaf c)))
      = [a, b, c] := by
  rw [collectErrors]
  rw [show a ++ ": " ++ (b ++ ": " ++ c) = (a ++ ": ") ++ (b ++ ": " ++ c) by
    simp [String.append_assoc]]
  simp only [GoError.message, cutSuffix_append]
  rw [collectErrors]
  rw [show b ++ ": " ++ c = (b ++ ": ") ++ c by simp [String.append_assoc]]
  simp only [GoError.message, cutSuffix_append]
  rw [collectErrors]
  simp [ha, hb]

/-- C5: for a wrapped-error chain where a wrapper's message is its own text
followed by `": "` and the cause's message (`a` wraps `b` wraps leaf `c`),
the unwinder strips the cause's message as a trailing suffix together with
the `": "` separator, keeps the non-empty remainders, recurses into the
cause, and joins all segments with `": "`, so the rendered (red) error text
is exactly `a: b: c`. -/
theorem C5_formatError_chain (a b c : String) (ha : a ≠ "") (hb : b ≠ "") :
    formatError (.wrap (a ++ ": " ++ (b ++ ": " ++ c)) (.wrap (b ++ ": " ++ c) (.leaf c)))
      = colorStr fgRed (a ++ ": " ++ (b ++ ": " ++ c)) := by
  rw [formatError, collectErrors_chain a b c ha hb]
  simp [goJoin, String.append_assoc]

/-- C5 witness: the spec's concrete chain "err 2" / "err 1" / "broken". -/
theorem C5_formatError_chain_witness :
    formatError (.wrap "err 2: err 1: broken" (.wrap "err 1: broken" (.leaf "broken")))
      = "\x1b[31merr 2: err 1: broken\x1b[0m" := by
  have h := C5_formatError_chain "err 2" "err 1" "broken" (by decide) (by decide)
  rw [show ("err 2" ++ ": " ++ ("err 1" ++ ": " ++ "broken") : String)
        = "err 2: err 1: broken" by decide,
     show ("err 1" ++ ": " ++ "broken" : String) = "err 1: broken" by decide] at h
  rw [h]
  decide

/-! ### Measure lemmas for the renderer -/

theorem filter_length_mono {α : Type} (p q : α → Bool) (K : List α)
    (h : ∀ a, q a = true → p a = true) :
    (K.filter q).length ≤ (K.filter p).length := by
  rw [← List.countP_eq_length_filter, ← List.countP_eq_length_filter]
  induction K with
  | nil => simp
  | cons a K ih =>
    rw [List.countP_cons, List.countP_cons]
    by_cases hq : q a = true
    · rw [if_pos hq, if_pos (h a hq)]; omega
    · rw [if_neg hq]
      by_cases hp : p a = true
      · rw [if_pos hp]; omega
      · rw [if_neg hp]; omega

theorem filter_length_strict {α : Type} (p q : α → Bool) {K : List α} {k0 : α}
    (h : ∀ a, q a = true → p a = true) (hmem : k0 ∈ K)
    (hq : q k0 = false) (hp : p k0 = true) :
    (K.filter q).length < (K.filter p).length := by
  rw [← List.countP_eq_length_filter, ← List.countP_eq_length_filter]
  induction K with
  | nil => simp at hmem
  | cons a K ih =>
    rw [List.countP_cons, List.countP_cons]
    rcases List.mem_cons.1 hmem with rfl | hmem2
    · rw [if_neg (by simp [hq]), if_pos hp]
      have hm := filter_length_mono p q K h
      rw [← List.countP_eq_length_filter, ← List.countP_eq_length_filter] at hm
      omega
    · by_cases hqa : q a = true
      · rw [if_pos hqa, if_pos (h a hqa)]
        have := ih hmem2
        omega
      · rw [if_neg hqa]
        by_cases hpa : p a = true
        · rw [if_pos hpa]
          have := ih hmem2
          omega
        · rw [if_neg hpa]
          exact ih hmem2

theorem unvisited_mono {K : List (Nat × String)} {vi vi' : Visited}
    (h : vi ⊆ vi') : unvisited K vi' ≤ unvisited K vi := by
  refine filter_length_mono _ _ K fun a ha => ?_
  simp only [decide_eq_true_eq] at ha ⊢
  exact fun hin => ha (h hin)

theorem unvisited_cons_lt {K : List (Nat × String)} {vi : Visited}
    {k0 : Nat × String} (hK : k0 ∈ K) (hvi : k0 ∉ vi) :
    unvisited K (k0 :: vi) < unvisited K vi := by
  refine filter_length_strict _ _ (fun a ha => ?_) hK ?_ ?_
  · simp only [decide_eq_true_eq] at ha ⊢
    exact fun hin => ha (List.mem_cons_of_mem _ hin)
  · simp
  · simpa using hvi

theorem rsizeL_take (m : Nat) (es : List RValue) :
    rsizeL (es.take m) ≤ rsizeL es := by
  induction es generalizing m with
  | nil => simp [rsizeL]
  | cons e es ih =>
    cases m with
    | zero => simp [rsizeL]
    | succ m =>
      simp only [List.take_succ_cons, rsizeL]
      have := ih m
      omega

theorem rsizeLP_insertLt (lt : RValue × RValue → RValue × RValue → Bool)
    (p : RValue × RValue) (l : List (RValue × RValue)) :
    rsizeLP (insertLt lt p l) = rsizeLP (p :: l) := by
  induction l with
  | nil => simp [insertLt]
  | cons b l ih =>
    simp only [insertLt]
    split
    · rcases p with ⟨pk, pv⟩; rcases b with ⟨bk, bv⟩
      simp only [rsizeLP] at ih ⊢
      omega
    · rfl

theorem rsizeLP_insertionSort (lt : RValue × RValue → RValue × RValue → Bool)
    (l : List (RValue × RValue)) :
    rsizeLP (insertionSort lt l) = rsizeLP l := by
  induction l with
  | nil => rfl
  | cons p l ih =>
    simp only [insertionSort]
    rw [rsizeLP_insertLt]
    rcases p with ⟨pk, pv⟩
    simp only [rsizeLP]
    omega

theorem mem_insertLt {α : Type} {lt : α → α → Bool} {x a : α} {l : List α}
    (h : x ∈ insertLt lt a l) : x = a ∨ x ∈ l := by
  induction l with
  | nil => simpa [insertLt] using h
  | cons b l ih =>
    simp only [insertLt] at h
    split at h
    · rcases List.mem_cons.1 h with rfl | h2
      · right; simp
      · rcases ih h2 with h3 | h3
        · left; exact h3
        · right; simp [h3]
    · rcases List.mem_cons.1 h with rfl | h2
      · left; rfl
      · right; exact h2

theorem mem_insertionSort {α : Type} {lt : α → α → Bool} {x : α} {l : List α}
    (h : x ∈ insertionSort lt l) : x ∈ l := by
  induction l with
  | nil => simpa [insertionSort] using h
  | cons a l ih =>
    simp only [insertionSort] at h
    rcases mem_insertLt h with rfl | h2
    · simp
    · simp [ih h2]

theorem good_getD {K : List (Nat × String)} {heap : List RValue}
    (hheap : ∀ c ∈ heap, good K c = true) (a : Nat) :
    good K (heap.getD a .vinvalid) = true := by
  by_cases h : a < heap.length
  · rw [List.getD_eq_getElem _ _ h]
    exact hheap _ (List.getElem_mem h)
  · rw [List.getD_eq_default _ _ (by omega)]
    rfl

theorem rsize_le_heapMax {heap : List RValue} {c : RValue} (h : c ∈ heap) :
    c.rsize ≤ heapMax heap := by
  induction heap with
  | nil => simp at h
  | cons d heap ih =>
    unfold heapMax
    simp only [List.foldr_cons]
    rcases List.mem_cons.1 h with rfl | h2
    · exact le_max_left _ _
    · have := ih h2
      unfold heapMax at this
      omega

theorem getD_rsize_le (heap : List RValue) (a : Nat) :
    (heap.getD a .vinvalid).rsize ≤ max (heapMax heap) 1 := by
  by_cases h : a < heap.length
  · rw [List.getD_eq_getElem _ _ h]
    exact le_trans (rsize_le_heapMax (List.getElem_mem h)) (le_max_left _ _)
  · rw [List.getD_eq_default _ _ (by omega)]
    simp [RValue.rsize]

theorem reducePVF_nonptr {heap : List RValue} {v : RValue}
    (h : v.isPtrV = false) (n : Nat) : reducePVF heap n v = some v := by
  cases v <;> simp_all [RValue.isPtrV] <;> cases n <;> rfl

theorem reducePTVF_nonptr {heap : List RValue} {v : RValue}
    (h : v.isPtrV = false) (n k : Nat) : reducePTVF heap n v k = some (v, k) := by
  cases v <;> simp_all [RValue.isPtrV] <;> cases n <;> rfl

theorem reducePointerValue_nonptr {heap : List RValue} {v : RValue}
    (h : v.isPtrV = false) : reducePointerValue heap v = some v :=
  reducePVF_nonptr h _

theorem reducePointerTypeValue_nonptr {heap : List RValue} {v : RValue}
    (h : v.isPtrV = false) : reducePointerTypeValue heap v = some (v, 0) :=
  reducePTVF_nonptr h _ _

/-! ### Fuel sufficiency of the renderer -/

theorem runF_fuel (maxSlice : Nat) (stringerFmt : Bool) (heap : List RValue)
    (K : List (Nat × String)) (hheap : ∀ c ∈ heap, good K c = true) :
    ∀ (n : Nat) (vi : Visited) (task : RTask), taskGood K task →
      rmeasure K heap vi task < n →
      ∃ out vi', runF maxSlice stringerFmt heap n vi task = some (out, vi') ∧ vi ⊆ vi' := by
  intro n
  induction n with
  | zero => intro vi task _ h; omega
  | succ n ih =>
    intro vi task htg hm
    cases task with
    | one t v =>
      replace htg : good K v = true := htg
      cases v with
      | vmarshal ty s => exact ⟨s, vi, rfl, List.Subset.refl vi⟩
      | vstringer ty s u =>
        by_cases hsf : stringerFmt = true
        · exact ⟨s, vi, by simp [runF, hsf], List.Subset.refl vi⟩
        · replace hsf : stringerFmt = false := by simpa using hsf
          have hgu := good_stringer htg
          have hq : rmeasure K heap vi (.one t u) < n := by
            simp only [rmeasure, taskCost] at hm ⊢
            simp only [RValue.rsize] at hm
            omega
          obtain ⟨out, vi', heq, hsub⟩ := ih vi (.one t u) hgu hq
          rw [hsf] at heq
          exact ⟨out, vi', by simp [runF, hsf, heq], hsub⟩
      | vslice ty es =>
        have hq : rmeasure K heap vi (.sliceT t (.vslice ty es)) < n := by
          simp only [rmeasure, taskCost] at hm ⊢
          omega
        obtain ⟨out, vi', heq, hsub⟩ :=
          ih vi (.sliceT t (.vslice ty es)) ⟨⟨ty, es, rfl⟩, htg⟩ hq
        exact ⟨out, vi', by simp [runF, heq], hsub⟩
      | vmap ty entries =>
        have hq : rmeasure K heap vi (.mapT t (.vmap ty entries)) < n := by
          simp only [rmeasure, taskCost] at hm ⊢
          omega
        obtain ⟨out, vi', heq, hsub⟩ :=
          ih vi (.mapT t (.vmap ty entries)) ⟨⟨ty, entries, rfl⟩, htg⟩ hq
        exact ⟨out, vi', by simp [runF, heq], hsub⟩
      | vstruct ty fs =>
        have hq : rmeasure K heap vi (.structT t (.vstruct ty fs)) < n := by
          simp only [rmeasure, taskCost] at hm ⊢
          omega
        obtain ⟨out, vi', heq, hsub⟩ :=
          ih vi (.structT t (.vstruct ty fs)) ⟨⟨ty, fs, rfl⟩, htg⟩ hq
        exact ⟨out, vi', by simp [runF, heq], hsub⟩
      | vptr ty addr =>
        cases addr with
        | none => exact ⟨nilString, vi, rfl, List.Subset.refl vi⟩
        | some a =>
          by_cases hvis : (a, ty) ∈ vi
          · exact ⟨govSprintTop heap (.vptr ty (some a)), vi,
              by simp [runF, hvis], List.Subset.refl vi⟩
          · have hK : (a, ty) ∈ K := good_ptr htg
            have hlt := unvisited_cons_lt hK hvis
            have hsz := getD_rsize_le heap a
            have hq : rmeasure K heap ((a, ty) :: vi)
                (.one t (heap.getD a .vinvalid)) < n := by
              simp only [rmeasure, taskCost, stepC] at hm ⊢
              simp only [RValue.rsize] at hm
              have h2 : unvisited K ((a, ty) :: vi) * (2 * max (heapMax heap) 1 + 4) +
                    (2 * max (heapMax heap) 1 + 4) ≤
                  unvisited K vi * (2 * max (heapMax heap) 1 + 4) := by
                have h3 : unvisited K ((a, ty) :: vi) + 1 ≤ unvisited K vi := hlt
                calc unvisited K ((a, ty) :: vi) * (2 * max (heapMax heap) 1 + 4) +
                        (2 * max (heapMax heap) 1 + 4)
                    = (unvisited K ((a, ty) :: vi) + 1) *
                        (2 * max (heapMax heap) 1 + 4) := by ring
                  _ ≤ unvisited K vi * (2 * max (heapMax heap) 1 + 4) :=
                      Nat.mul_le_mul_right _ h3
              omega
            obtain ⟨out, vi', heq, hsub⟩ :=
              ih ((a, ty) :: vi) (.one t (heap.getD a .vinvalid)) (good_getD hheap a) hq
            refine ⟨out, vi', ?_, (List.subset_cons_self _ _).trans hsub⟩
            simp only [runF]
            rw [if_neg hvis]
            exact heq
      | vfloat s => exact ⟨colorStr fgCyan s, vi, rfl, List.Subset.refl vi⟩
      | vint k => exact ⟨colorStr fgCyan (toString k), vi, rfl, List.Subset.refl vi⟩
      | vbool b =>
        exact ⟨colorStr (if b then fgGreen else fgRed) (toString b), vi, rfl,
          List.Subset.refl vi⟩
      | vstr s =>
        refine ⟨if s.length = 0 then colorStrFainted fgWhite "empty" else s, vi, ?_,
          List.Subset.refl vi⟩
        simp only [runF]
        split <;> rfl
      | viface w =>
        have hq : rmeasure K heap vi (.one w.tyName w) < n := by
          simp only [rmeasure, taskCost] at hm ⊢
          simp only [RValue.rsize] at hm
          omega
        obtain ⟨out, vi', heq, hsub⟩ := ih vi (.one w.tyName w) (good_iface htg) hq
        exact ⟨out, vi', by simp [runF, heq], hsub⟩
      | vifaceNil => exact ⟨nilString, vi, rfl, List.Subset.refl vi⟩
      | vinvalid => exact ⟨govSprintTop heap .vinvalid, vi, rfl, List.Subset.refl vi⟩
    | sliceT t v =>
      obtain ⟨⟨ty, es, rfl⟩, hgood⟩ := htg
      have hred : reducePointerTypeValue heap (.vslice ty es) = some (.vslice ty es, 0) :=
        reducePointerTypeValue_nonptr rfl
      have htg2 : taskGood K (.elems (es.take (min maxSlice es.length))) :=
        fun e he => good_slice_mem hgood e (List.mem_of_mem_take he)
      have hq : rmeasure K heap vi (.elems (es.take (min maxSlice es.length))) < n := by
        simp only [rmeasure, taskCost] at hm ⊢
        simp only [RValue.rsize] at hm
        have := rsizeL_take (min maxSlice es.length) es
        omega
      obtain ⟨body, vi', heq, hsub⟩ := ih vi _ htg2 hq
      refine ⟨colorStr fgCyan (toString es.length) ++ " " ++ buildTypeString t ++
        colorStr fgGreen "\x7b" ++ body ++
        (if es.length > min maxSlice es.length then " " ++ colorStr fgCyan "..." else "") ++
        colorStr fgGreen "\x7d", vi', ?_, hsub⟩
      simp only [runF, hred, heq]
    | mapT t v =>
      obtain ⟨⟨ty, entries, rfl⟩, hgood⟩ := htg
      have hred : reducePointerTypeValue heap (.vmap ty entries) = some (.vmap ty entries, 0) :=
        reducePointerTypeValue_nonptr rfl
      have htg2 : taskGood K (.entries (insertionSort
          (fun e₁ e₂ => strLt (govSprintTop heap e₁.1) (govSprintTop heap e₂.1)) entries)) :=
        fun p hp => good_map_mem hgood p (mem_insertionSort hp)
      have hq : rmeasure K heap vi (.entries (insertionSort
          (fun e₁ e₂ => strLt (govSprintTop heap e₁.1) (govSprintTop heap e₂.1)) entries)) < n := by
        simp only [rmeasure, taskCost] at hm ⊢
        simp only [RValue.rsize] at hm
        rw [rsizeLP_insertionSort]
        omega
      obtain ⟨body, vi', heq, hsub⟩ := ih vi _ htg2 hq
      refine ⟨colorStr fgCyan (toString entries.length) ++ " " ++ buildTypeString t ++
        colorStr fgGreen "\x7b" ++ body ++ colorStr fgGreen "\x7d", vi', ?_, hsub⟩
      simp only [runF, hred, heq]
    | structT t v =>
      obtain ⟨⟨ty, fs, rfl⟩, hgood⟩ := htg
      have hred : reducePointerTypeValue heap (.vstruct ty fs) = some (.vstruct ty fs, 0) :=
        reducePointerTypeValue_nonptr rfl
      have htg2 : taskGood K (.fields fs) := fun f hf => good_struct_mem hgood f hf
      have hq : rmeasure K heap vi (.fields fs) < n := by
        simp only [rmeasure, taskCost] at hm ⊢
        simp only [RValue.rsize] at hm
        omega
      obtain ⟨body, vi', heq, hsub⟩ := ih vi _ htg2 hq
      refine ⟨buildTypeString t ++ colorStr fgYellow "\x7b" ++ body ++
        colorStr fgYellow "\x7d", vi', ?_, hsub⟩
      simp only [runF, hred, heq]
    | elems es =>
      cases es with
      | nil => exact ⟨"", vi, rfl, List.Subset.refl vi⟩
      | cons e rest =>
        have htg1 : good K e = true := htg e (by simp)
        have hq1 : rmeasure K heap vi (.one e.tyName e) < n := by
          simp only [rmeasure, taskCost] at hm ⊢
          simp only [rsizeL] at hm
          omega
        obtain ⟨s, vi1, heq1, hsub1⟩ := ih vi (.one e.tyName e) htg1 hq1
        have htg2 : taskGood K (.elems rest) := fun x hx => htg x (by simp [hx])
        have hq2 : rmeasure K heap vi1 (.elems rest) < n := by
          have hmul : unvisited K vi1 * stepC heap ≤ unvisited K vi * stepC heap :=
            Nat.mul_le_mul_right _ (unvisited_mono hsub1)
          simp only [rmeasure, taskCost] at hm ⊢
          simp only [rsizeL] at hm
          omega
        obtain ⟨srest, vi2, heq2, hsub2⟩ := ih vi1 (.elems rest) htg2 hq2
        refine ⟨if rest.isEmpty then s else s ++ " " ++ srest, vi2, ?_, hsub1.trans hsub2⟩
        simp only [runF, heq1, heq2]
    | entries es =>
      cases es with
      | nil => exact ⟨"", vi, rfl, List.Subset.refl vi⟩
      | cons p rest =>
        obtain ⟨k, v⟩ := p
        obtain ⟨⟨hkp, hvp⟩, hkg, hvg⟩ := htg (k, v) (by simp)
        have hredv : reducePointerValue heap v = some v := reducePointerValue_nonptr hvp
        have hredk : reducePointerValue heap k = some k := reducePointerValue_nonptr hkp
        have hq1 : rmeasure K heap vi (.one v.tyName v) < n := by
          simp only [rmeasure, taskCost] at hm ⊢
          simp only [rsizeLP] at hm
          omega
        obtain ⟨s, vi1, heq1, hsub1⟩ := ih vi (.one v.tyName v) hvg hq1
        have htg2 : taskGood K (.entries rest) := fun x hx => htg x (by simp [hx])
        have hq2 : rmeasure K heap vi1 (.entries rest) < n := by
          have hmul : unvisited K vi1 * stepC heap ≤ unvisited K vi * stepC heap :=
            Nat.mul_le_mul_right _ (unvisited_mono hsub1)
          simp only [rmeasure, taskCost] at hm ⊢
          simp only [rsizeLP] at hm
          omega
        obtain ⟨srest, vi2, heq2, hsub2⟩ := ih vi1 (.entries rest) htg2 hq2
        refine ⟨if rest.isEmpty then colorStr fgGreen (govSprintTop heap k) ++ "=" ++ s
          else colorStr fgGreen (govSprintTop heap k) ++ "=" ++ s ++ " " ++ srest, vi2, ?_,
          hsub1.trans hsub2⟩
        simp only [runF, hredv, hredk, heq1, heq2]
    | fields fs =>
      cases fs with
      | nil => exact ⟨"", vi, rfl, List.Subset.refl vi⟩
      | cons f rest =>
        obtain ⟨nm, fv⟩ := f
        have htg1 : good K fv = true := htg (nm, fv) (by simp)
        have hq1 : rmeasure K heap vi (.one fv.tyName fv) < n := by
          simp only [rmeasure, taskCost] at hm ⊢
          simp only [rsizeLS] at hm
          omega
        obtain ⟨s, vi1, heq1, hsub1⟩ := ih vi (.one fv.tyName fv) htg1 hq1
        have htg2 : taskGood K (.fields rest) := fun x hx => htg x (by simp [hx])
        have hq2 : rmeasure K heap vi1 (.fields rest) < n := by
          have hmul : unvisited K vi1 * stepC heap ≤ unvisited K vi * stepC heap :=
            Nat.mul_le_mul_right _ (unvisited_mono hsub1)
          simp only [rmeasure, taskCost] at hm ⊢
          simp only [rsizeLS] at hm
          omega
        obtain ⟨srest, vi2, heq2, hsub2⟩ := ih vi1 (.fields rest) htg2 hq2
        refine ⟨if rest.isEmpty then colorStr fgGreen nm ++ "=" ++ s
          else colorStr fgGreen nm ++ "=" ++ s ++ " " ++ srest, vi2, ?_,
          hsub1.trans hsub2⟩
        simp only [runF, heq1, heq2]

/-! ### C1 -/

/-- C1 (amended): within the element renderer, cycle-visited identity is
keyed by (pointer address, pointer type) and applies only to
reference-typed values: whenever every pointer's visit key lies in a
finite key set `K`, no map carries a pointer-typed key or entry value
(those are stripped by an unguarded reduction loop), and the fuel exceeds
the measure, rendering terminates with finite output and a
monotonically-grown visited set; a pointer whose key was already visited
in the same render call renders as an opaque placeholder (its `fmt` form)
without being re-expanded; and plain scalars never consult or extend the
visited set. -/
theorem C1_visited_cycle_rendering
    (maxSlice : Nat) (stringerFmt : Bool) (heap : List RValue)
    (K : List (Nat × String)) (n : Nat) (vi : Visited) (t : String) (v : RValue)
    (hheap : ∀ c ∈ heap, good K c = true)
    (hv : good K v = true)
    (hfuel : rmeasure K heap vi (.one t v) < n) :
    (∃ out vi', runF maxSlice stringerFmt heap n vi (.one t v) = some (out, vi') ∧ vi ⊆ vi')
    ∧ (∀ (m : Nat) (ty t' : String) (a : Nat), (a, ty) ∈ vi →
        runF maxSlice stringerFmt heap (m + 1) vi (.one t' (.vptr ty (some a)))
          = some (govSprintTop heap (.vptr ty (some a)), vi))
    ∧ (∀ (m : Nat) (s t' : String),
        runF maxSlice stringerFmt heap (m + 1) vi (.one t' (.vstr s))
          = some (if s.length = 0 then colorStrFainted fgWhite "empty" else s, vi)) := by
  refine ⟨runF_fuel maxSlice stringerFmt heap K hheap n vi (.one t v) hv hfuel, ?_, ?_⟩
  · intro m ty t' a hvis
    simp [runF, hvis]
  · intro m s t'
    simp only [runF]
    split <;> rfl

/-- C1 witness: the A→B→C→A struct cycle of `testInfinite` renders with
finite output under the key set of its three pointers. -/
theorem C1_visited_cycle_rendering_witness :
    (∀ c ∈ cycleHeap, good cycleKeys c = true) ∧
    good cycleKeys (RValue.vstruct "humanslog.Infinite"
      [("I", .vptr "*humanslog.Infinite" (some 1))]) = true ∧
    rmeasure cycleKeys cycleHeap [] (.one "humanslog.Infinite"
      (RValue.vstruct "humanslog.Infinite"
        [("I", .vptr "*humanslog.Infinite" (some 1))])) < 200 ∧
    (∃ out vi', runF 4 true cycleHeap 200 [] (.one "humanslog.Infinite"
        (RValue.vstruct "humanslog.Infinite"
          [("I", .vptr "*humanslog.Infinite" (some 1))])) = some (out, vi') ∧
      ([] : Visited) ⊆ vi') := by
  refine ⟨by decide, by decide, by decide, ?_⟩
  exact (C1_visited_cycle_rendering 4 true cycleHeap cycleKeys 200 []
    "humanslog.Infinite" _ (by decide) (by decide) (by decide)).1

/-- C1 counterexample: the claim as stated fails on the code.  A value of
the self-referential pointer type `type P *P` with `p = P(&p)` is an
attribute value containing a pointer cycle, yet the pointer reduction that
`colorize` and `formatValueInline` run before dispatch
(`reducePointerTypeValue`, devslog.go:1022) loops forever on it: the loop
body never exits no matter how many iterations it gets, so rendering does
not terminate. -/
theorem C1_selfptr_divergence :
    selfPtrReduceDiverges ∧
    reducePointerTypeValue selfPtrHeap selfPtrVal = none := by
  have h : selfPtrReduceDiverges := by
    intro n
    induction n with
    | zero => intro k; rfl
    | succ n ih =>
      intro k
      have hstep : reducePTVF selfPtrHeap (n + 1) selfPtrVal k
          = reducePTVF selfPtrHeap n selfPtrVal (k + 1) := rfl
      rw [hstep]
      exact ih (k + 1)
  exact ⟨h, h _ _⟩

/-! ### C6 -/

theorem take_min_eq {α : Type} (m : Nat) (l : List α) :
    l.take (min m l.length) = l.take m := by
  rcases le_total m l.length with h | h
  · rw [min_eq_left h]
  · rw [min_eq_right h, List.take_length, List.take_of_length_le h]

theorem runF_elems_int (maxSlice : Nat) (sf : Bool) (heap : List RValue) :
    ∀ (xs : List Int) (n : Nat) (vi : Visited), xs.length < n →
      runF maxSlice sf heap n vi (.elems (xs.map RValue.vint))
        = some (goJoin " " (xs.map fun x => colorStr fgCyan (toString x)), vi) := by
  intro xs
  induction xs with
  | nil =>
    intro n vi hn
    obtain ⟨m, rfl⟩ : ∃ m, n = m + 1 := ⟨n - 1, by omega⟩
    rfl
  | cons x rest ih =>
    intro n vi hn
    obtain ⟨m, rfl⟩ : ∃ m, n = m + 1 := ⟨n - 1, by omega⟩
    have hm1 : 1 ≤ m := by simp at hn; omega
    have h1 : runF maxSlice sf heap m vi
        (.one (RValue.vint x).tyName (.vint x)) = some (colorStr fgCyan (toString x), vi) := by
      obtain ⟨m', rfl⟩ : ∃ m', m = m' + 1 := ⟨m - 1, by omega⟩
      rfl
    have h2 : runF maxSlice sf heap m vi (.elems (rest.map RValue.vint))
        = some (goJoin " " (rest.map fun y => colorStr fgCyan (toString y)), vi) := by
      refine ih m vi ?_
      simp at hn
      omega
    simp only [List.map_cons, runF, h1, h2]
    cases rest with
    | nil => rfl
    | cons y ys => rfl

/-- C6: `formatSlice` shows the full length as the leading count, renders
exactly the first `min MaxSlicePrintSize length` elements, and appends a
`...` marker precisely when the sequence is longer than the limit
(integer elements shown; the truncation logic is element-independent). -/
theorem C6_slice_truncation (maxSlice : Nat) (sf : Bool) (heap : List RValue)
    (t ty : String) (xs : List Int) (vi : Visited) (n : Nat)
    (hn : xs.length + 1 < n) :
    runF maxSlice sf heap n vi (.sliceT t (.vslice ty (xs.map RValue.vint)))
      = some (colorStr fgCyan (toString xs.length) ++ " " ++ buildTypeString t ++
          colorStr fgGreen "\x7b" ++
          goJoin " " ((xs.take maxSlice).map fun x => colorStr fgCyan (toString x)) ++
          (if maxSlice < xs.length then " " ++ colorStr fgCyan "..." else "") ++
          colorStr fgGreen "\x7d", vi) := by
  obtain ⟨m, rfl⟩ : ∃ m, n = m + 1 := ⟨n - 1, by omega⟩
  have hred : reducePointerTypeValue heap (.vslice ty (xs.map RValue.vint))
      = some (.vslice ty (xs.map RValue.vint), 0) := reducePointerTypeValue_nonptr rfl
  have htake : (xs.map RValue.vint).take (min maxSlice xs.length)
      = (xs.take maxSlice).map RValue.vint := by
    have h0 := take_min_eq maxSlice (xs.map RValue.vint)
    rw [List.length_map] at h0
    rw [h0, ← List.map_take]
  have hbody : runF maxSlice sf heap m vi
      (.elems ((xs.take maxSlice).map RValue.vint))
      = some (goJoin " " ((xs.take maxSlice).map fun x => colorStr fgCyan (toString x)), vi) := by
    refine runF_elems_int maxSlice sf heap _ m vi ?_
    have h3 : (xs.take maxSlice).length ≤ xs.length := by
      rw [List.length_take]
      omega
    omega
  simp only [runF, hred, List.length_map, htake, hbody]
  have hcond : (xs.length > min maxSlice xs.length) ↔ (maxSlice < xs.length) := by
    omega
  simp only [hcond]

/-- C6 witness: a sequence of 11 values with max-print-size 4 renders
count 11, exactly the first 4 elements, and a `...` marker — byte-equal
to the repository's `testSliceBig` expectation. -/
theorem C6_slice_truncation_witness :
    ([0, 2, 4, 6, 8, 10, 12, 14, 16, 18, 20] : List Int).length + 1 < 20 ∧
    runF 4 true [] 20 [] (.sliceT "[]int" (.vslice "[]int"
        (([0, 2, 4, 6, 8, 10, 12, 14, 16, 18, 20] : List Int).map RValue.vint)))
      = some ("\x1b[36m11\x1b[0m \x1b[32m[\x1b[0m\x1b[32m]\x1b[0m\x1b[33mi\x1b[0m\x1b[33mn\x1b[0m\x1b[33mt\x1b[0m\x1b[32m\x7b\x1b[0m\x1b[36m0\x1b[0m \x1b[36m2\x1b[0m \x1b[36m4\x1b[0m \x1b[36m6\x1b[0m \x1b[36m...\x1b[0m\x1b[32m\x7d\x1b[0m", ([] : Visited)) := by
  refine ⟨by decide, ?_⟩
  rw [C6_slice_truncation 4 true [] "[]int" "[]int" _ [] 20 (by decide)]
  decide

/-! ### C7 -/

theorem insertLt_perm {α : Type} (lt : α → α → Bool) (a : α) :
    ∀ l : List α, (insertLt lt a l).Perm (a :: l) := by
  intro l
  induction l with
  | nil => rfl
  | cons b l ih =>
    simp only [insertLt]
    split
    · exact (ih.cons b).trans (List.Perm.swap a b l)
    · rfl

theorem insertionSort_perm {α : Type} (lt : α → α → Bool) :
    ∀ l : List α, (insertionSort lt l).Perm l := by
  intro l
  induction l with
  | nil => rfl
  | cons a l ih => exact (insertLt_perm lt a _).trans (ih.cons a)

theorem insertLt_pairwise {α : Type} {lt : α → α → Bool} {R : α → α → Prop}
    (hR1 : ∀ a b, lt b a = false → R a b)
    (hR2 : ∀ a b, lt b a = true → R b a)
    (htrans : ∀ a b c, R a b → R b c → R a c)
    (a : α) : ∀ l : List α, List.Pairwise R l → List.Pairwise R (insertLt lt a l) := by
  intro l
  induction l with
  | nil => intro _; simp [insertLt]
  | cons b l ih =>
    intro hl
    simp only [insertLt]
    split
    · rename_i hlt
      refine List.pairwise_cons.2 ⟨?_, ih (List.pairwise_cons.1 hl).2⟩
      intro x hx
      rcases mem_insertLt hx with rfl | hx2
      · exact hR2 x b hlt
      · exact (List.pairwise_cons.1 hl).1 x hx2
    · rename_i hlt
      refine List.pairwise_cons.2 ⟨?_, hl⟩
      intro x hx
      rcases List.mem_cons.1 hx with rfl | hx2
      · exact hR1 a x (by simpa using hlt)
      · exact htrans a b x (hR1 a b (by simpa using hlt))
          ((List.pairwise_cons.1 hl).1 x hx2)

theorem insertionSort_pairwise {α : Type} {lt : α → α → Bool} {R : α → α → Prop}
    (hR1 : ∀ a b, lt b a = false → R a b)
    (hR2 : ∀ a b, lt b a = true → R b a)
    (htrans : ∀ a b c, R a b → R b c → R a c) :
    ∀ l : List α, List.Pairwise R (insertionSort lt l) := by
  intro l
  induction l with
  | nil => simp [insertionSort]
  | cons a l ih => exact insertLt_pairwise hR1 hR2 htrans a _ ih

theorem char_eq_of_toNat {x y : Char} (h : x.toNat = y.toNat) : x = y := by
  have h2 : Char.ofNat x.toNat = Char.ofNat y.toNat := by rw [h]
  rwa [Char.ofNat_toNat, Char.ofNat_toNat] at h2

theorem listLtChar_irrefl : ∀ a : List Char, listLtChar a a = false := by
  intro a
  induction a with
  | nil => rfl
  | cons x xs ih => simp [listLtChar, ih]

theorem listLtChar_trans :
    ∀ a b c : List Char, listLtChar a b = true → listLtChar b c = true →
      listLtChar a c = true := by
  intro a
  induction a with
  | nil =>
    intro b c hab hbc
    cases b with
    | nil => simp [listLtChar] at hab
    | cons y ys =>
      cases c with
      | nil => simp [listLtChar] at hbc
      | cons z zs => rfl
  | cons x xs ih =>
    intro b c hab hbc
    cases b with
    | nil => simp [listLtChar] at hab
    | cons y ys =>
      cases c with
      | nil => simp [listLtChar] at hbc
      | cons z zs =>
        simp only [listLtChar] at hab hbc ⊢
        by_cases hxy : x.toNat < y.toNat
        · by_cases hyz : y.toNat < z.toNat
          · rw [if_pos (by omega)]
          · by_cases hzy : z.toNat < y.toNat
            · rw [if_neg hyz, if_pos hzy] at hbc
              exact absurd hbc (by simp)
            · rw [if_pos (by omega)]
        · by_cases hyx : y.toNat < x.toNat
          · rw [if_neg hxy, if_pos hyx] at hab
            exact absurd hab (by simp)
          · rw [if_neg hxy, if_neg hyx] at hab
            by_cases hyz : y.toNat < z.toNat
            · rw [if_pos (by omega)]
            · by_cases hzy : z.toNat < y.toNat
              · rw [if_neg hyz, if_pos hzy] at hbc
                exact absurd hbc (by simp)
              · rw [if_neg hyz, if_neg hzy] at hbc
                rw [if_neg (by omega), if_neg (by omega)]
                exact ih ys zs hab hbc

theorem listLtChar_conn :
    ∀ a b : List Char, listLtChar a b = false → listLtChar b a = false → a = b := by
  intro a
  induction a with
  | nil =>
    intro b hab _
    cases b with
    | nil => rfl
    | cons y ys => simp [listLtChar] at hab
  | cons x xs ih =>
    intro b hab hba
    cases b with
    | nil => simp [listLtChar] at hba
    | cons y ys =>
      simp only [listLtChar] at hab hba
      by_cases hxy : x.toNat < y.toNat
      · rw [if_pos hxy] at hab
        exact absurd hab (by simp)
      · by_cases hyx : y.toNat < x.toNat
        · rw [if_pos hyx] at hba
          exact absurd hba (by simp)
        · rw [if_neg hxy, if_neg hyx] at hab
          rw [if_neg hyx, if_neg hxy] at hba
          rw [char_eq_of_toNat (by omega : x.toNat = y.toNat), ih ys hab hba]

theorem listLtChar_asymm {a b : List Char} (h : listLtChar a b = true) :
    listLtChar b a = false := by
  by_contra hba
  rw [Bool.not_eq_false] at hba
  have := listLtChar_trans a b a h hba
  rw [listLtChar_irrefl] at this
  exact absurd this (by simp)

theorem strLt_asymm {a b : String} (h : strLt a b = true) : strLt b a = false :=
  listLtChar_asymm h

theorem strLt_conn {a b : String} (hab : strLt a b = false) (hba : strLt b a = false) :
    a = b :=
  String.ext (listLtChar_conn _ _ hab hba)

theorem strLt_trans {a b c : String} (hab : strLt a b = true) (hbc : strLt b c = true) :
    strLt a c = true :=
  listLtChar_trans _ _ _ hab hbc

/-- C7 (amended): `formatMap` lists the entries sorted by the textual form
of their keys (stably — tied keys keep the iteration order), and two
renders of the same map — any two iteration orders, i.e. permutations of
the entry list — produce identical output provided the keys' textual
forms are pairwise distinct.  The relation `strLt (key q) (key p) = false`
reads "q's key text is not below p's", i.e. the keys appear in
non-decreasing textual order. -/
theorem C7_map_keys_textual_order
    (maxSlice : Nat) (sf : Bool) (heap : List RValue) (t ty : String)
    (entries entriesB : List (RValue × RValue)) (n : Nat) (vi : Visited)
    (hperm : entriesB.Perm entries)
    (hnodup : (entries.map fun p => govSprintTop heap p.1).Nodup) :
    List.Pairwise (fun p q : RValue × RValue =>
        strLt (govSprintTop heap q.1) (govSprintTop heap p.1) = false)
      (insertionSort (fun e₁ e₂ =>
        strLt (govSprintTop heap e₁.1) (govSprintTop heap e₂.1)) entries)
    ∧ runF maxSlice sf heap n vi (.mapT t (.vmap ty entriesB))
        = runF maxSlice sf heap n vi (.mapT t (.vmap ty entries)) := by
  set lt : RValue × RValue → RValue × RValue → Bool := fun e₁ e₂ =>
    strLt (govSprintTop heap e₁.1) (govSprintTop heap e₂.1) with hlt
  set R : RValue × RValue → RValue × RValue → Prop := fun p q =>
    strLt (govSprintTop heap q.1) (govSprintTop heap p.1) = false with hR
  have hR1 : ∀ a b : RValue × RValue, lt b a = false → R a b := fun a b h => h
  have hR2 : ∀ a b : RValue × RValue, lt b a = true → R b a := fun a b h =>
    strLt_asymm h
  have htrans : ∀ a b c : RValue × RValue, R a b → R b c → R a c := by
    intro a b c h1 h2
    rw [hR] at h1 h2 ⊢
    by_contra hca
    rw [Bool.not_eq_false] at hca
    rcases Bool.eq_false_or_eq_true (strLt (govSprintTop heap a.1) (govSprintTop heap b.1))
      with hab | hab
    · have h3 := strLt_trans hca hab
      rw [h3] at h2
      exact absurd h2 (by simp)
    · rw [strLt_conn hab h1] at hca
      rw [hca] at h2
      exact absurd h2 (by simp)
  have hsorted := insertionSort_pairwise hR1 hR2 htrans entries
  refine ⟨hsorted, ?_⟩
  have hsortedB := insertionSort_pairwise hR1 hR2 htrans entriesB
  have hneA : List.Pairwise (fun p q : RValue × RValue =>
      govSprintTop heap p.1 ≠ govSprintTop heap q.1) entries :=
    (List.pairwise_map (l := entries)).1 hnodup
  have hneSortA := ((insertionSort_perm lt entries).pairwise_iff
    (fun h => h.symm)).2 hneA
  have hneSortB := (((insertionSort_perm lt entriesB).trans hperm).pairwise_iff
    (fun h => h.symm)).2 hneA
  have hstrict : ∀ {p q : RValue × RValue}, R p q →
      govSprintTop heap p.1 ≠ govSprintTop heap q.1 → lt p q = true := by
    intro p q hle hne
    rw [hR] at hle
    rw [hlt]
    rcases Bool.eq_false_or_eq_true (strLt (govSprintTop heap p.1) (govSprintTop heap q.1))
      with hpq | hpq
    · exact hpq
    · exact absurd (strLt_conn hpq hle) hne
  have hltA : List.Pairwise (fun p q : RValue × RValue => lt p q = true)
      (insertionSort lt entries) :=
    (hsorted.and hneSortA).imp fun h => hstrict h.1 h.2
  have hltB : List.Pairwise (fun p q : RValue × RValue => lt p q = true)
      (insertionSort lt entriesB) :=
    (hsortedB.and hneSortB).imp fun h => hstrict h.1 h.2
  have hpermSort : (insertionSort lt entriesB).Perm (insertionSort lt entries) :=
    ((insertionSort_perm lt entriesB).trans hperm).trans (insertionSort_perm lt entries).symm
  haveI : IsAntisymm (RValue × RValue) (fun p q : RValue × RValue => lt p q = true) :=
    ⟨fun a b h1 h2 => by
      simp only [hlt] at h1 h2
      rw [strLt_asymm h2] at h1
      exact absurd h1 (by simp)⟩
  have hsortEq : insertionSort lt entriesB = insertionSort lt entries :=
    List.eq_of_perm_of_sorted hpermSort hltB hltA
  cases n with
  | zero => rfl
  | succ m =>
    have hredA : reducePointerTypeValue heap (.vmap ty entries)
        = some (.vmap ty entries, 0) := reducePointerTypeValue_nonptr rfl
    have hredB : reducePointerTypeValue heap (.vmap ty entriesB)
        = some (.vmap ty entriesB, 0) := reducePointerTypeValue_nonptr rfl
    simp only [runF, hredA, hredB, hsortEq, hperm.length_eq]

set_option maxRecDepth 40000 in
/-- C7 witness: the map `(0 : "a", 1 : "b")` renders key 0 before key 1
from either iteration order, byte-equal to the repository's `testMap`
expectation. -/
theorem C7_map_keys_textual_order_witness :
    ([((RValue.vint 1 : RValue), (RValue.vstr "b" : RValue)), (.vint 0, .vstr "a")].Perm
      [((RValue.vint 0 : RValue), (RValue.vstr "a" : RValue)), (.vint 1, .vstr "b")]) ∧
    ([((RValue.vint 0 : RValue), (RValue.vstr "a" : RValue)), (.vint 1, .vstr "b")].map
      fun p => govSprintTop [] p.1).Nodup ∧
    runF 50 true [] 30 [] (.mapT "map[int]string" (.vmap "map[int]string"
        [(.vint 1, .vstr "b"), (.vint 0, .vstr "a")]))
      = runF 50 true [] 30 [] (.mapT "map[int]string" (.vmap "map[int]string"
        [(.vint 0, .vstr "a"), (.vint 1, .vstr "b")])) ∧
    runF 50 true [] 30 [] (.mapT "map[int]string" (.vmap "map[int]string"
        [(.vint 1, .vstr "b"), (.vint 0, .vstr "a")]))
      = some ("\x1b[36m2\x1b[0m \x1b[33mm\x1b[0m\x1b[33ma\x1b[0m\x1b[33mp\x1b[0m\x1b[32m[\x1b[0m\x1b[33mi\x1b[0m\x1b[33mn\x1b[0m\x1b[33mt\x1b[0m\x1b[32m]\x1b[0m\x1b[33ms\x1b[0m\x1b[33mt\x1b[0m\x1b[33mr\x1b[0m\x1b[33mi\x1b[0m\x1b[33mn\x1b[0m\x1b[33mg\x1b[0m\x1b[32m\x7b\x1b[0m\x1b[32m0\x1b[0m=a \x1b[32m1\x1b[0m=b\x1b[32m\x7d\x1b[0m", ([] : Visited)) := by
  have h := C7_map_keys_textual_order 50 true [] "map[int]string" "map[int]string"
    [(.vint 0, .vstr "a"), (.vint 1, .vstr "b")]
    [(.vint 1, .vstr "b"), (.vint 0, .vstr "a")] 30 []
    (List.Perm.swap _ _ _) (by decide)
  exact ⟨List.Perm.swap _ _ _, by decide, h.2, by decide⟩

set_option maxRecDepth 40000 in
/-- C7 counterexample: the claim as stated is false — a map over
interface keys can hold two distinct keys with the same textual form
(`1 : int` and `"1" : string`, both printing as `1`); then the two
renders of the same map under its two iteration orders differ, because
the tied keys keep their iteration order. -/
theorem C7_tied_keys_not_deterministic :
    ([((RValue.vstr "1" : RValue), (RValue.vstr "b" : RValue)), (.vint 1, .vstr "a")].Perm
      [((RValue.vint 1 : RValue), (RValue.vstr "a" : RValue)), (.vstr "1", .vstr "b")]) ∧
    runF 50 true [] 30 [] (.mapT "map[any]string" (.vmap "map[any]string"
        [(.vint 1, .vstr "a"), (.vstr "1", .vstr "b")]))
      ≠ runF 50 true [] 30 [] (.mapT "map[any]string" (.vmap "map[any]string"
        [(.vstr "1", .vstr "b"), (.vint 1, .vstr "a")])) :=
  ⟨List.Perm.swap _ _ _, by decide⟩

/-! ### C3: block routing -/

theorem ssize_pos (v : SValue) : 1 ≤ v.ssize := by
  cases v <;> simp [SValue.ssize]

theorem mem_ssizeLA {a : String × SValue} {as : List (String × SValue)}
    (h : a ∈ as) : a.2.ssize + 1 ≤ ssizeL as := by
  induction as with
  | nil => simp at h
  | cons b as ih =>
    rcases List.mem_cons.1 h with rfl | h
    · rcases a with ⟨k, v⟩
      simp only [ssizeL]
      omega
    · have := ih h
      rcases b with ⟨k, v⟩
      simp only [ssizeL]
      omega

theorem attrsCNL_iff (as : List (String × SValue)) :
    attrsContainNewline as = true ↔ ∃ a ∈ as, svalueCNL a.2 = true := by
  induction as with
  | nil => simp [attrsContainNewline]
  | cons a as ih =>
    rcases a with ⟨k, v⟩
    simp only [attrsContainNewline, Bool.or_eq_true, ih, List.mem_cons]
    constructor
    · rintro (h | ⟨b, hb, h⟩)
      · exact ⟨(k, v), Or.inl rfl, h⟩
      · exact ⟨b, Or.inr hb, h⟩
    · rintro ⟨b, rfl | hb, h⟩
      · exact Or.inl h
      · exact Or.inr ⟨b, hb, h⟩

theorem mem_attrStringsL {s : String} {as : List (String × SValue)} :
    s ∈ attrStringsL as ↔ ∃ a ∈ as, s ∈ svalueStrings a.2 := by
  induction as with
  | nil => simp [attrStringsL]
  | cons a as ih =>
    rcases a with ⟨k, v⟩
    simp only [attrStringsL, List.mem_append, ih, List.mem_cons]
    constructor
    · rintro (h | ⟨b, hb, h⟩)
      · exact ⟨(k, v), Or.inl rfl, h⟩
      · exact ⟨b, Or.inr hb, h⟩
    · rintro ⟨b, rfl | hb, h⟩
      · exact Or.inl h
      · exact Or.inr ⟨b, hb, h⟩

theorem svalueCNL_iff_aux :
    ∀ n (v : SValue), v.ssize ≤ n →
      (svalueCNL v = true ↔ ∃ s ∈ svalueStrings v, containsNL s = true) := by
  intro n
  induction n with
  | zero => intro v h; have := ssize_pos v; omega
  | succ n ih =>
    intro v hn
    cases v with
    | str s => simp [svalueCNL, svalueStrings]
    | group as =>
      simp only [svalueCNL, svalueStrings]
      rw [attrsCNL_iff]
      simp only [SValue.ssize] at hn
      constructor
      · rintro ⟨b, hb, h⟩
        have hsz := mem_ssizeLA hb
        rcases (ih b.2 (by omega)).1 h with ⟨t, ht, hnl⟩
        exact ⟨t, mem_attrStringsL.2 ⟨b, hb, ht⟩, hnl⟩
      · rintro ⟨t, ht, hnl⟩
        rcases mem_attrStringsL.1 ht with ⟨b, hb, htb⟩
        have hsz := mem_ssizeLA hb
        exact ⟨b, hb, (ih b.2 (by omega)).2 ⟨t, htb, hnl⟩⟩
    | any ty w =>
      simp only [svalueCNL, svalueStrings]
      by_cases hty : ty = "string"
      · rw [if_pos hty, if_pos hty]
        cases w <;> simp
      · rw [if_neg hty, if_neg hty]
        simp
    | int n => simp [svalueCNL, svalueStrings]
    | uint n => simp [svalueCNL, svalueStrings]
    | float t => simp [svalueCNL, svalueStrings]
    | bool b => simp [svalueCNL, svalueStrings]
    | time t => simp [svalueCNL, svalueStrings]
    | duration t => simp [svalueCNL, svalueStrings]
    | err e => simp [svalueCNL, svalueStrings]
    | anyNil => simp [svalueCNL, svalueStrings]

/-- C3 (amended): an attribute is routed to the block section iff one of
the strings it carries in string positions (its own string when
string-kinded, a plain dynamic string, or those of nested group members)
contains a line break, or its textual form is JSON-parseable.  The JSON
half applies to the textual form of every kind, not only to string-typed
attributes (see the counterexample). -/
theorem C3_block_routing (heap : List RValue) (a : Attr) :
    isBlockAttr heap a = true ↔
      ((∃ s ∈ attrStrings a, containsNL s = true) ∨
        isJSON (svalueString heap a.2) = true) := by
  simp only [isBlockAttr, Bool.or_eq_true, attrContainsNewline, attrStrings]
  rw [svalueCNL_iff_aux a.2.ssize a.2 le_rfl]

set_option maxRecDepth 20000 in
/-- C3 counterexample: the claim as stated is false — `slog.Any` of the
slice `[]int{1}` is not string-kinded and contains no newline, yet its
textual form `"[1]"` is JSON-parseable, so the attribute is routed to
the block section. -/
theorem C3_nonstring_block :
    isBlockAttr [] c3Attr = true ∧ isStringKind c3Attr.2 = false ∧
      attrContainsNewline c3Attr = false := by
  refine ⟨by decide, by decide, by decide⟩

/-! ### C8: empty-string rendering -/

/-- C8 (amended): the faint `"empty"` marker appears in the block layout
(`colorize`) and in the reflection-based element renderer, but the
inline `formatValueInline` `KindString` branch has no empty-string case
and renders the empty text (see the counterexample). -/
theorem C8_empty_string_rendering (h : Opts) (heap : List RValue)
    (k t : String) (n l ms : Nat) (sf : Bool) (group : List String)
    (vi : Visited) (pad : Nat) (hra : h.replaceAttr = none) :
    colorizeLoop h heap (n + 2) [(k, .str "")] l group vi pad =
      some (String.mk (List.replicate (l * 2) ' ') ++ " " ++ colorStr fgGray k ++
        "=" ++ colorStrFainted fgWhite "empty" ++ "\n", vi) ∧
    runF ms sf heap (n + 1) vi (.one t (.vstr "")) =
      some (colorStrFainted fgWhite "empty", vi) ∧
    formatValueInline h heap (k, .str "") = some "" := by
  refine ⟨?_, ?_, ?_⟩
  · simp only [colorizeLoop, applyHook, hra, svalueString]
    simp
  · simp only [runF]
    simp
  · have h1 : isJSON "" = false := by decide
    have h2 : isURL "" = false := by decide
    simp [formatValueInline, h1, h2]

/-- C8 witness: the three rendering sites at a concrete input. -/
theorem C8_empty_string_rendering_witness :
    colorizeLoop plainOpts [] 2 [("k", .str "")] 0 [] [] 0 =
      some (String.mk (List.replicate (0 * 2) ' ') ++ " " ++ colorStr fgGray "k" ++
        "=" ++ colorStrFainted fgWhite "empty" ++ "\n", []) ∧
    runF 50 false [] 1 [] (.one "t" (.vstr "")) =
      some (colorStrFainted fgWhite "empty", []) ∧
    formatValueInline plainOpts [] ("k", .str "") = some "" :=
  C8_empty_string_rendering plainOpts [] "k" "t" 0 0 50 false [] [] 0 rfl

/-- C8 counterexample: the claim as stated is false — an inline
string-kinded attribute resolving to the empty string renders as the
empty text, not as the faint marker (the test suite pins this: the
`empty=` attribute of `testString` is followed by nothing). -/
theorem C8_inline_empty_not_marker :
    formatValueInline plainOpts [] ("key", .str "") = some "" ∧
      ("" : String) ≠ colorStrFainted fgWhite "empty" := by
  refine ⟨by decide, by decide⟩

/-! ### C9: empty-key hook results -/

/-- C9: a hook returning an empty key suppresses output only for the
source segment (whose emission is gated on the returned key being
non-empty); for any other attribute the empty-key result is rendered as
given — the logfmt line shows a bare `=` with the value, with no
suppression. -/
theorem C9_empty_key_hook (h : Opts) (heap : List RValue)
    (f : List String → Attr → Attr) (r : Record) (a : Attr) (v : SValue)
    (val : String) (n : Nat) (hra : h.replaceAttr = some f) :
    (h.addSource = true →
      (f [] ("source", .str (r.srcFile ++ ":" ++ toString r.srcLine))).1 = "" →
      sourceSegment h r = "") ∧
    (h.addSource = true →
      (f [] ("source", .str (r.srcFile ++ ":" ++ toString r.srcLine))).1 ≠ "" →
      sourceSegment h r =
        colorStr fgWhite (r.srcFile ++ ":" ++ toString r.srcLine) ++ " ") ∧
    (f [] a = ("", v) → isGroupKind v = false →
      formatValueInline h heap ("", v) = some val →
      formatLogfmtAttrsF h heap (n + 2) [a] [] =
        some (" " ++ colorStr fgGray "=" ++ val)) := by
  refine ⟨?_, ?_, ?_⟩
  · intro hs hk
    simp [sourceSegment, hs, hra, hk]
  · intro hs hk
    simp [sourceSegment, hs, hra, hk]
  · intro hf hg hval
    simp only [formatLogfmtAttrsF, applyHook, hra, hf]
    cases v with
    | group ga => simp [isGroupKind] at hg
    | str sv => simp [formatLogfmtAttrsF, hval]
    | int m => simp [formatLogfmtAttrsF, hval]
    | uint m => simp [formatLogfmtAttrsF, hval]
    | float t => simp [formatLogfmtAttrsF, hval]
    | bool b => simp [formatLogfmtAttrsF, hval]
    | time t => simp [formatLogfmtAttrsF, hval]
    | duration t => simp [formatLogfmtAttrsF, hval]
    | err e => simp [formatLogfmtAttrsF, hval]
    | anyNil => simp [formatLogfmtAttrsF, hval]
    | any ty w => simp [formatLogfmtAttrsF, hval]

/-- C9 witness: the key-dropping hook suppresses the source segment but
renders an ordinary attribute with a bare `=`. -/
theorem C9_empty_key_hook_witness :
    sourceSegment dropKeyOpts srcRec = "" ∧
    formatLogfmtAttrsF dropKeyOpts [] 2 [("x", .str "v")] [] =
      some (" " ++ colorStr fgGray "=" ++ "v") := by
  have H := C9_empty_key_hook dropKeyOpts [] dropKeyHook srcRec
    ("x", .str "v") (.str "v") "v" 0 rfl
  exact ⟨H.1 rfl (by decide), H.2.2 rfl (by decide) (by decide)⟩

/-! ### C4: trailing-group drop -/

theorem attrKeysL_append (l1 l2 : List (String × SValue)) :
    attrKeysL (l1 ++ l2) = attrKeysL l1 ++ attrKeysL l2 := by
  induction l1 with
  | nil => simp [attrKeysL]
  | cons a l ih =>
    rcases a with ⟨k, v⟩
    simp [attrKeysL, ih]

theorem mergeGoasRev_keys :
    ∀ (gs : List groupOrAttrs) (acc : List Attr) (k : String),
      k ∈ attrKeysL (mergeGoasRev gs acc) →
      k ∈ goasKeys gs ∨ k ∈ attrKeysL acc := by
  intro gs
  induction gs with
  | nil =>
    intro acc k h
    simp only [mergeGoasRev] at h
    exact Or.inr h
  | cons g rest ih =>
    intro acc k h
    simp only [mergeGoasRev] at h
    by_cases hg : g.group = ""
    · rw [if_neg (by simp [hg])] at h
      rcases ih _ k h with h2 | h2
      · exact Or.inl (by simp only [goasKeys, List.flatMap_cons] at *; simp [h2])
      · rw [attrKeysL_append] at h2
        rcases List.mem_append.1 h2 with h3 | h3
        · exact Or.inr h3
        · refine Or.inl ?_
          simp only [goasKeys, List.flatMap_cons, List.mem_append]
          exact Or.inl (by simp [h3])
    · rw [if_pos (by simp [hg])] at h
      rcases ih _ k h with h2 | h2
      · exact Or.inl (by simp only [goasKeys, List.flatMap_cons] at *; simp [h2])
      · simp only [attrKeysL, svalueKeys, List.append_nil] at h2
        rcases List.mem_cons.1 h2 with rfl | h3
        · refine Or.inl ?_
          simp only [goasKeys, List.flatMap_cons, List.mem_append]
          exact Or.inl (by simp [hg])
        · exact Or.inr h3

theorem goasKeys_mem_reverse (gs : List groupOrAttrs) (k : String) :
    k ∈ goasKeys gs.reverse ↔ k ∈ goasKeys gs := by
  simp [goasKeys, List.mem_flatMap]

/-- C4 (amended): when the record carries zero attributes after the
level-hook quirk, the trailing group frames are dropped before the
merge, and every key of the merged attribute list comes from the
remaining prefix frames — so the dropped trailing group names leave no
trace; concretely, a `WithGroup("g")` derivation plus an attribute-free
record (with no hook) renders with no `g` anywhere.  The level-renaming
hook defeats the zero-attribute test (see the counterexample). -/
theorem C4_trailing_group_drop :
    (∀ (goas : List groupOrAttrs) (k : String),
      k ∈ attrKeysL (mergeGoasRev (dropTrailingGroups goas).reverse []) →
      k ∈ goasKeys (dropTrailingGroups goas)) ∧
    (formatOneLine plainOpts [] gFrame emptyRec =
        some "\x1b[2m\x1b[0m \x1b[42m\x1b[30m INFO \x1b[0m m\n" ∧
      'g' ∉ "\x1b[2m\x1b[0m \x1b[42m\x1b[30m INFO \x1b[0m m\n".toList) := by
  constructor
  · intro goas k h
    rcases mergeGoasRev_keys _ [] k h with h2 | h2
    · exact (goasKeys_mem_reverse _ k).1 h2
    · simp [attrKeysL] at h2
  · exact ⟨by decide, by decide⟩

/-- C4 witness: a non-trailing attrs frame keeps its key through the
merge, and the key indeed comes from the remaining prefix. -/
theorem C4_trailing_group_drop_witness :
    "a" ∈ goasKeys (dropTrailingGroups c4goas) :=
  C4_trailing_group_drop.1 c4goas "a" (by decide)

set_option maxRecDepth 20000 in
/-- C4 counterexample: the claim as stated is false — a level-renaming
hook makes `formatOneLine` add the renamed level attr to the record, the
zero-attribute test fails, the trailing group frame is kept, and the
group name `g` shows up in the output (`g.lvl=INFO`). -/
theorem C4_level_hook_group_trace :
    formatOneLine levelRenameOpts [] gFrame emptyRec =
      some "\x1b[2m\x1b[0m \x1b[42m\x1b[30m INFO \x1b[0m m \x1b[90mg.lvl=\x1b[0mINFO\n" ∧
    'g' ∈ "\x1b[2m\x1b[0m \x1b[42m\x1b[30m INFO \x1b[0m m \x1b[90mg.lvl=\x1b[0mINFO\n".toList := by
  refine ⟨by decide, by decide⟩

/-! ### C2: sorting -/

theorem strLt_irrefl (a : String) : strLt a a = false :=
  listLtChar_irrefl _

theorem filter_insertLt {α : Type} (lt : α → α → Bool) (p : α → Bool) (a : α) :
    ∀ l : List α, (∀ b ∈ l, p b = true → p a = true → lt b a = false) →
      (insertLt lt a l).filter p = (a :: l).filter p := by
  intro l
  induction l with
  | nil => intro _; rfl
  | cons b l ih =>
    intro hyp
    simp only [insertLt]
    by_cases hlt : lt b a = true
    · rw [if_pos hlt]
      have hrec : (insertLt lt a l).filter p = (a :: l).filter p :=
        ih fun c hc hpc hpca => hyp c (List.mem_cons_of_mem _ hc) hpc hpca
      cases hpa : p a
      · simp [List.filter_cons, hpa, hrec]
      · cases hpb : p b
        · simp [List.filter_cons, hpa, hpb, hrec]
        · exact absurd (hyp b (by simp) hpb hpa) (by simp [hlt])
    · rw [if_neg hlt]

theorem filter_insertionSort {α : Type} (lt : α → α → Bool) (p : α → Bool)
    (hp : ∀ x y, p x = true → p y = true → lt x y = false) :
    ∀ l : List α, (insertionSort lt l).filter p = l.filter p := by
  intro l
  induction l with
  | nil => rfl
  | cons a l ih =>
    simp only [insertionSort]
    rw [filter_insertLt lt p a _ fun b _ hpb hpa => hp b a hpb hpa]
    simp only [List.filter_cons, ih]

/-- C2 (amended): with `SortKeys` enabled both layouts stably sort the
list they are handed by key — the sort is a permutation, leaves the keys
in nondecreasing order, and preserves the relative order of attributes
with equal keys (their filtered subsequence is unchanged).  The
top-level list is sorted once in `formatOneLine` and nested groups are
re-sorted inside the block renderer, but the inline flattening never
sorts a nested group's members (see the counterexample). -/
theorem C2_sort_behavior (as : List Attr) (k : String) :
    (insertionSort attrLt as).Perm as ∧
    List.Pairwise (fun x y : Attr => strLt y.1 x.1 = false)
      (insertionSort attrLt as) ∧
    (insertionSort attrLt as).filter (fun x => x.1 == k) =
      as.filter (fun x => x.1 == k) := by
  refine ⟨insertionSort_perm attrLt as, ?_, ?_⟩
  · refine insertionSort_pairwise ?_ ?_ ?_ as
    · intro a b h
      exact h
    · intro a b h
      exact strLt_asymm h
    · intro a b c hab hbc
      by_cases hbc2 : strLt b.1 c.1 = true
      · cases hca : strLt c.1 a.1
        · rfl
        · exact absurd (strLt_trans hbc2 hca) (by simp [hab])
      · have heq : c.1 = b.1 := strLt_conn hbc (by simpa using hbc2)
        rw [heq]
        exact hab
  · refine filter_insertionSort attrLt (fun x => x.1 == k) ?_ as
    intro x y hx hy
    have hx2 : x.1 = k := by simpa using hx
    have hy2 : y.1 = k := by simpa using hy
    simp only [attrLt, hx2, hy2]
    exact strLt_irrefl k

set_option maxRecDepth 20000 in
/-- C2 counterexample: the claim as stated is false — with `SortKeys`
on, a nested group whose members are keyed `b` then `a` keeps that order
in the inline (logfmt) layout (`g.b=` before `g.a=`), while the block
renderer does sort it (`a` then `b`). -/
theorem C2_nested_inline_unsorted :
    formatOneLine sortOpts [] [] nestedRec =
      some "\x1b[2m\x1b[0m \x1b[42m\x1b[30m INFO \x1b[0m m \x1b[90mg.b=\x1b[0m1 \x1b[90mg.a=\x1b[0m2\n" ∧
    colorizeF sortOpts [] 8
        [("g", .group [("b", .str "1"), ("a", .str "2")])] 0 [] [] =
      some ("\x1b[32mG\x1b[0m \x1b[90mg\x1b[0m=\n   \x1b[90ma\x1b[0m=2\n   \x1b[90mb\x1b[0m=1\n", []) := by
  refine ⟨by decide, by decide⟩

/-! ### C10: the JSON colorizer only wraps content in escapes -/

theorem stripB_nil : stripB [] = [] := by simp [stripB]

theorem stripB_cons_ne (c : Nat) (rest : List Nat) (h : ¬ c = 27) :
    stripB (c :: rest) = c :: stripB rest := by
  rw [stripB]
  exact fun hc => h hc

theorem stripB_27_seq (rest r : List Nat) (h : matchSeq rest = some r) :
    stripB (27 :: rest) = stripB r := by
  rw [stripB]
  split
  · rename_i r2 hm
    rw [hm] at h
    injection h with h
    rw [h]
  · rename_i hm
    rw [hm] at h
    cases h

theorem stripB_27_none (rest : List Nat) (h : matchSeq rest = none) :
    stripB (27 :: rest) = 27 :: stripB rest := by
  rw [stripB]
  split
  · rename_i r2 hm
    rw [hm] at h
    cases h
  · rfl

theorem matchSeq_none_of_head (l : List Nat) (h : headNot91 l = true) :
    matchSeq l = none := by
  cases l with
  | nil => rfl
  | cons c r =>
    have hc : ¬ c = 91 := by
      intro hc
      subst hc
      simp [headNot91] at h
    simp [matchSeq, hc]

theorem dropWhile_params (ds : List Nat) (rest : List Nat)
    (h : ∀ d ∈ ds, paramB d = true) :
    (ds ++ 109 :: rest).dropWhile paramB = 109 :: rest := by
  induction ds with
  | nil =>
    simp only [List.nil_append, List.dropWhile]
    rfl
  | cons d ds ih =>
    have hd : paramB d = true := h d (by simp)
    simp only [List.cons_append, List.dropWhile_cons, hd, if_true]
    exact ih fun e he => h e (by simp [he])

theorem matchSeq_escape (ds rest : List Nat) (h : ∀ d ∈ ds, paramB d = true) :
    matchSeq (91 :: (ds ++ 109 :: rest)) = some rest := by
  simp [matchSeq, dropWhile_params ds rest h]

theorem stripB_esc (ds rest : List Nat) (h : ∀ d ∈ ds, paramB d = true) :
    stripB (27 :: 91 :: (ds ++ 109 :: rest)) = stripB rest :=
  stripB_27_seq _ _ (matchSeq_escape ds rest h)

theorem escB_append (c : Nat) (rest : List Nat) :
    escB c ++ rest = 27 :: 91 :: (digitsB c ++ 109 :: rest) := by
  simp [escB]

theorem stripB_escB (c : Nat) (rest : List Nat)
    (h : ∀ d ∈ digitsB c, paramB d = true) :
    stripB (escB c ++ rest) = stripB rest := by
  rw [escB_append]
  exact stripB_esc _ _ h

theorem stripB_noesc_append (s tail : List Nat) (h : 27 ∉ s) :
    stripB (s ++ tail) = s ++ stripB tail := by
  induction s with
  | nil => simp
  | cons c s ih =>
    have hc : ¬ c = 27 := fun hc => h (by simp [hc])
    simp only [List.cons_append]
    rw [stripB_cons_ne c _ hc, ih fun hm => h (by simp [hm])]

theorem digitsB_0 : ∀ d ∈ digitsB 0, paramB d = true := by decide

theorem stripB_colorB_single (c : Nat) (ch : Nat) (rest : List Nat)
    (hd : ∀ d ∈ digitsB c, paramB d = true) :
    stripB (colorB c [ch] ++ rest) = ch :: stripB rest := by
  have hsplit : colorB c [ch] ++ rest = escB c ++ (ch :: (escB 0 ++ rest)) := by
    simp [colorB]
  rw [hsplit, stripB_escB c _ hd]
  by_cases hch : ch = 27
  · subst hch
    rw [stripB_27_none _ (matchSeq_none_of_head _ (by simp [escB, headNot91]))]
    rw [stripB_escB 0 rest digitsB_0]
  · rw [stripB_cons_ne _ _ hch, stripB_escB 0 rest digitsB_0]

theorem stripB_colorB_noesc (c : Nat) (s rest : List Nat)
    (hd : ∀ d ∈ digitsB c, paramB d = true) (hs : 27 ∉ s) :
    stripB (colorB c s ++ rest) = s ++ stripB rest := by
  have hsplit : colorB c s ++ rest = escB c ++ (s ++ (escB 0 ++ rest)) := by
    simp [colorB]
  rw [hsplit, stripB_escB c _ hd, stripB_noesc_append s _ hs,
    stripB_escB 0 rest digitsB_0]

theorem headNot91_cons (c : Nat) (l : List Nat) (h : ¬ c = 91) :
    headNot91 (c :: l) = true := by
  simp [headNot91, h]

theorem headNot91_colorB (c : Nat) (s rest : List Nat) :
    headNot91 (colorB c s ++ rest) = true := by
  simp [colorB, escB, headNot91]

theorem numB_ne_27 {x : Nat} (h : numB x = true) : ¬ x = 27 := by
  intro hx
  subst hx
  simp [numB] at h

set_option maxHeartbeats 1600000 in
theorem strip_colJF (s k e : Bool) (data : List Nat) :
    ∀ tail : List Nat, headNot91 tail = true →
      stripB (colJF s k e data ++ tail) = data ++ stripB tail ∧
      (e = false → headNot91 (colJF s k e data ++ tail) = true) := by
  induction s, k, e, data using colJF.induct
  · -- nil
    intro tail ht
    refine ⟨by simp [colJF], fun _ => by simpa [colJF] using ht⟩
  · -- escape state: emit the byte bare
    rename_i inString inKey ch rest ih
    intro tail ht
    obtain ⟨ih1, ih2⟩ := ih tail ht
    have hred : colJF inString inKey true (ch :: rest) =
        ch :: colJF inString inKey false rest := by
      simp only [colJF]
    rw [hred]
    constructor
    · by_cases hch : ch = 27
      · subst hch
        rw [List.cons_append,
          stripB_27_none _ (matchSeq_none_of_head _ (ih2 rfl)), ih1]
        simp
      · rw [List.cons_append, stripB_cons_ne _ _ hch, ih1]
        simp
    · intro he
      exact absurd he (by decide)
  · -- backslash in string
    rename_i inKey rest ih
    intro tail ht
    obtain ⟨ih1, _⟩ := ih tail ht
    have hred : colJF true inKey false (92 :: rest) =
        92 :: colJF true inKey true rest := by
      simp only [colJF]
    rw [hred]
    constructor
    · rw [List.cons_append, stripB_cons_ne _ _ (by decide), ih1]
      simp
    · intro _
      rw [List.cons_append]
      exact headNot91_cons _ _ (by decide)
  · -- closing quote
    rename_i inKey rest hj ih
    intro tail ht
    obtain ⟨ih1, _⟩ := ih tail ht
    have hred : colJF true inKey false (34 :: rest) =
        colorB (if inKey then 90 else 37) [34] ++ colJF false false false rest := by
      simp only [colJF]
      simp
    rw [hred, List.append_assoc]
    refine ⟨?_, fun _ => headNot91_colorB _ _ _⟩
    rw [stripB_colorB_single _ _ _ (by cases inKey <;> decide), ih1]
    simp
  · -- opening quote
    rename_i inString inKey rest hnotin isKey hj ih
    intro tail ht
    have hin : inString = false := by simpa using hnotin
    subst hin
    obtain ⟨ih1, _⟩ := ih tail ht
    have hred : colJF false inKey false (34 :: rest) =
        colorB (if lookIsKey rest then 90 else 37) [34] ++
          colJF true (lookIsKey rest) false rest := by
      simp only [colJF]
      simp
    rw [hred, List.append_assoc]
    refine ⟨?_, fun _ => headNot91_colorB _ _ _⟩
    rw [stripB_colorB_single _ _ _ (by cases lookIsKey rest <;> decide), ih1]
    simp
  · -- braces and brackets
    rename_i inString inKey ch rest hj h34 hbr ih
    intro tail ht
    obtain ⟨ih1, _⟩ := ih tail ht
    have hred : colJF inString inKey false (ch :: rest) =
        colorB 36 [ch] ++ colJF inString inKey false rest := by
      simp only [colJF]
      rw [if_neg h34, if_pos hbr]
    rw [hred, List.append_assoc]
    refine ⟨?_, fun _ => headNot91_colorB _ _ _⟩
    rw [stripB_colorB_single _ _ _ (by decide), ih1]
    simp
  · -- colon and comma
    rename_i inString inKey ch rest hj h34 hbr hcc ih
    intro tail ht
    obtain ⟨ih1, _⟩ := ih tail ht
    have hred : colJF inString inKey false (ch :: rest) =
        colorB 37 [ch] ++ colJF inString inKey false rest := by
      simp only [colJF]
      rw [if_neg h34, if_neg hbr, if_pos hcc]
    rw [hred, List.append_assoc]
    refine ⟨?_, fun _ => headNot91_colorB _ _ _⟩
    rw [stripB_colorB_single _ _ _ (by decide), ih1]
    simp
  · -- literal true
    rename_i inString inKey ch rest hj h34 hbr hcc ht116 htake ih
    intro tail ht
    obtain ⟨ih1, _⟩ := ih tail ht
    have hch : ch = 116 ∧ inString = false := by
      simpa using ht116
    obtain ⟨rfl, rfl⟩ := hch
    have hred : colJF false inKey false (116 :: rest) =
        colorB 32 [116, 114, 117, 101] ++ colJF false inKey false (rest.drop 3) := by
      simp only [colJF]
      rw [if_neg h34, if_neg hbr, if_neg hcc]
      simp [htake]
    rw [hred, List.append_assoc]
    refine ⟨?_, fun _ => headNot91_colorB _ _ _⟩
    rw [stripB_colorB_noesc _ _ _ (by decide) (by decide), ih1]
    conv_rhs => rw [← List.take_append_drop 3 rest, htake]
    simp
  · -- bare t
    rename_i inString inKey ch rest hj h34 hbr hcc ht116 htake ih
    intro tail ht
    obtain ⟨ih1, _⟩ := ih tail ht
    have hch : ch = 116 ∧ inString = false := by
      simpa using ht116
    obtain ⟨rfl, rfl⟩ := hch
    have hred : colJF false inKey false (116 :: rest) =
        116 :: colJF false inKey false rest := by
      simp only [colJF]
      rw [if_neg h34, if_neg hbr, if_neg hcc]
      simp [htake]
    rw [hred]
    constructor
    · rw [List.cons_append, stripB_cons_ne _ _ (by decide), ih1]
      simp
    · intro _
      rw [List.cons_append]
      exact headNot91_cons _ _ (by decide)
  · -- literal false
    rename_i inString inKey ch rest hj h34 hbr hcc ht116 hf102 htake ih
    intro tail ht
    obtain ⟨ih1, _⟩ := ih tail ht
    have hch : ch = 102 ∧ inString = false := by
      simpa using hf102
    obtain ⟨rfl, rfl⟩ := hch
    have hred : colJF false inKey false (102 :: rest) =
        colorB 31 [102, 97, 108, 115, 101] ++ colJF false inKey false (rest.drop 4) := by
      simp only [colJF]
      rw [if_neg h34, if_neg hbr, if_neg hcc]
      simp [htake]
    rw [hred, List.append_assoc]
    refine ⟨?_, fun _ => headNot91_colorB _ _ _⟩
    rw [stripB_colorB_noesc _ _ _ (by decide) (by decide), ih1]
    conv_rhs => rw [← List.take_append_drop 4 rest, htake]
    simp
  · -- bare f
    rename_i inString inKey ch rest hj h34 hbr hcc ht116 hf102 htake ih
    intro tail ht
    obtain ⟨ih1, _⟩ := ih tail ht
    have hch : ch = 102 ∧ inString = false := by
      simpa using hf102
    obtain ⟨rfl, rfl⟩ := hch
    have hred : colJF false inKey false (102 :: rest) =
        102 :: colJF false inKey false rest := by
      simp only [colJF]
      rw [if_neg h34, if_neg hbr, if_neg hcc]
      simp [htake]
    rw [hred]
    constructor
    · rw [List.cons_append, stripB_cons_ne _ _ (by decide), ih1]
      simp
    · intro _
      rw [List.cons_append]
      exact headNot91_cons _ _ (by decide)
  · -- literal null
    rename_i inString inKey ch rest hj h34 hbr hcc ht116 hf102 hn110 htake ih
    intro tail ht
    obtain ⟨ih1, _⟩ := ih tail ht
    have hch : ch = 110 ∧ inString = false := by
      simpa using hn110
    obtain ⟨rfl, rfl⟩ := hch
    have hred : colJF false inKey false (110 :: rest) =
        colorB 30 [110, 117, 108, 108] ++ colJF false inKey false (rest.drop 3) := by
      simp only [colJF]
      rw [if_neg h34, if_neg hbr, if_neg hcc]
      simp [htake]
    rw [hred, List.append_assoc]
    refine ⟨?_, fun _ => headNot91_colorB _ _ _⟩
    rw [stripB_colorB_noesc _ _ _ (by decide) (by decide), ih1]
    conv_rhs => rw [← List.take_append_drop 3 rest, htake]
    simp
  · -- bare n
    rename_i inString inKey ch rest hj h34 hbr hcc ht116 hf102 hn110 htake ih
    intro tail ht
    obtain ⟨ih1, _⟩ := ih tail ht
    have hch : ch = 110 ∧ inString = false := by
      simpa using hn110
    obtain ⟨rfl, rfl⟩ := hch
    have hred : colJF false inKey false (110 :: rest) =
        110 :: colJF false inKey false rest := by
      simp only [colJF]
      rw [if_neg h34, if_neg hbr, if_neg hcc]
      simp [htake]
    rw [hred]
    constructor
    · rw [List.cons_append, stripB_cons_ne _ _ (by decide), ih1]
      simp
    · intro _
      rw [List.cons_append]
      exact headNot91_cons _ _ (by decide)
  · -- number run
    rename_i inString inKey ch rest hj h34 hbr hcc ht116 hf102 hn110 hnum ih
    intro tail ht
    obtain ⟨ih1, _⟩ := ih tail ht
    have hnum2 : (((48 ≤ ch ∧ ch ≤ 57) ∨ ch = 45) ∨ ch = 46) ∧ inString = false := by
      simpa using hnum
    obtain ⟨hchr, rfl⟩ := hnum2
    have hred : colJF false inKey false (ch :: rest) =
        colorB 36 (ch :: rest.takeWhile numB) ++
          colJF false inKey false (rest.dropWhile numB) := by
      simp only [colJF]
      rw [if_neg h34, if_neg hbr, if_neg hcc]
      simp only [ht116, hf102, hn110, if_neg, Bool.not_eq_true]
      rw [if_pos (by simpa using hnum)]
    rw [hred, List.append_assoc]
    refine ⟨?_, fun _ => headNot91_colorB _ _ _⟩
    have hno27 : (27 : Nat) ∉ ch :: rest.takeWhile numB := by
      intro hmem
      rcases List.mem_cons.1 hmem with h27 | h27
      · omega
      · exact numB_ne_27 (List.mem_takeWhile_imp h27) rfl
    rw [stripB_colorB_noesc _ _ _ (by decide) hno27, ih1]
    simp only [List.cons_append, List.cons.injEq, true_and]
    rw [← List.append_assoc, List.takeWhile_append_dropWhile]
  · -- other byte inside a string
    rename_i inKey ch rest h34 hbr hcc hj ht116 hf102 hn110 hnum ih
    intro tail ht
    obtain ⟨ih1, _⟩ := ih tail ht
    have hred : colJF true inKey false (ch :: rest) =
        colorB (if inKey then 90 else 37) [ch] ++ colJF true inKey false rest := by
      simp only [colJF]
      rw [if_neg h34, if_neg hbr, if_neg hcc]
      simp only [ht116, hf102, hn110, hnum, if_neg, Bool.not_eq_true]
      try simp
    rw [hred, List.append_assoc]
    refine ⟨?_, fun _ => headNot91_colorB _ _ _⟩
    rw [stripB_colorB_single _ _ _ (by cases inKey <;> decide), ih1]
    simp
  · -- other byte outside a string
    rename_i inString inKey ch rest hj h34 hbr hcc ht116 hf102 hn110 hnum hnotin ih
    intro tail ht
    have hin : inString = false := by simpa using hnotin
    subst hin
    obtain ⟨ih1, ih2⟩ := ih tail ht
    have hred : colJF false inKey false (ch :: rest) =
        ch :: colJF false inKey false rest := by
      simp only [colJF]
      rw [if_neg h34, if_neg hbr, if_neg hcc]
      simp only [ht116, hf102, hn110, hnum, if_neg, Bool.not_eq_true]
      try simp [hnum]
    rw [hred]
    have hch91 : ¬ ch = 91 := by
      intro h91
      subst h91
      simp at hbr
    constructor
    · by_cases hch : ch = 27
      · subst hch
        rw [List.cons_append,
          stripB_27_none _ (matchSeq_none_of_head _ (ih2 rfl)), ih1]
        simp
      · rw [List.cons_append, stripB_cons_ne _ _ hch, ih1]
        simp
    · intro _
      rw [List.cons_append]
      exact headNot91_cons _ _ hch91

/-- C10: stripping the ANSI color escape sequences from the output of
the single-pass JSON colorizer yields exactly the input bytes — the
scanner only wraps existing bytes in escape pairs (or copies them
verbatim) and never inserts, drops, duplicates, or reorders a content
byte.  Proved for the initial state via an invariant over all scanner
states: the strip of the output followed by any tail not starting with
`[` is the input followed by the strip of the tail, and (outside the
escape state) the output never starts with a bare `[`. -/
theorem C10_strip_colorize_identity (data : List Nat) :
    stripB (colorizeJSONBytes data) = data := by
  have H := (strip_colJF false false false data [] rfl).1
  simpa [colorizeJSONBytes, stripB_nil] using H

end Humanslog